import Mathlib

/-!
Verification of the UDRAL plug-and-play proof-of-concept orchestrator and
port-name resolvers.  The definitions below are a shallow embedding of the
Python sources (`node_proxy.py`, `service_discoverer.py`,
`service_detector.py`): Python dicts become association lists that keep
insertion order, Python string operations are reimplemented over `List Char`
with Python semantics, and the asynchronous register RPC exchange becomes an
explicit request trace against an abstract remote behaviour.
-/

namespace UdralPnp

/-! ### Insertion-ordered dictionaries (Python `dict` semantics)

A Python dict keeps the position of an existing key on reassignment and
appends fresh keys at the end; lookups return the stored value.
-/

def dinsert : List (String × α) → String → α → List (String × α)
  | [], k, v => [(k, v)]
  | p :: d, k, v => if p.1 = k then (k, v) :: d else p :: dinsert d k v

def dlookup : List (String × α) → String → Option α
  | [], _ => none
  | (k', v) :: d, k => if k' = k then some v else dlookup d k

def dkeys (d : List (String × α)) : List String := d.map Prod.fst

/-! ### Python string splitting on `.`

`splitDotsAux cs acc` mirrors `str.split(".")`; `splitDotsMaxAux n`
mirrors `str.split(".", n)` (at most `n` splits).  `stripDots` mirrors
`str.strip(".")` (dots removed from both ends).
-/

def splitDotsAux : List Char → List Char → List (List Char)
  | [], acc => [acc.reverse]
  | c :: cs, acc =>
    if c = '.' then acc.reverse :: splitDotsAux cs [] else splitDotsAux cs (c :: acc)

def splitDots (s : String) : List String := (splitDotsAux s.data []).map String.mk

def splitDotsMaxAux : Nat → List Char → List Char → List (List Char)
  | _, [], acc => [acc.reverse]
  | 0, cs, acc => [acc.reverse ++ cs]
  | n + 1, c :: cs, acc =>
    if c = '.' then acc.reverse :: splitDotsMaxAux n cs [] else splitDotsMaxAux (n + 1) cs (c :: acc)

def stripDots (s : String) : String :=
  String.mk (((s.data.dropWhile (fun c => c = '.')).reverse.dropWhile (fun c => c = '.')).reverse)

/-- Inverse of dot-splitting, used to state that `splitDots` loses no
characters. -/
def joinDots : List (List Char) → List Char
  | [] => []
  | [x] => x
  | x :: xs => x ++ '.' :: joinDots xs

/-- Python `str.strip()` with no argument: whitespace removed from both
ends. -/
def pySpace (c : Char) : Bool :=
  c = ' ' || c = '\t' || c = '\n' || c = '\r' || c = '\x0b' || c = '\x0c'

def pyStrip (s : String) : String :=
  String.mk (((s.data.dropWhile pySpace).reverse.dropWhile pySpace).reverse)

/-- Python `str.lower()` (ASCII range, which covers the cookie values the
orchestrator compares). -/
def pyLowerChar (c : Char) : Char :=
  if 65 ≤ c.toNat ∧ c.toNat ≤ 90 then Char.ofNat (c.toNat + 32) else c

def pyLower (s : String) : String :=
  String.mk (s.data.map pyLowerChar)

/-- Python `str.startswith` / `str.endswith`. -/
def chrsStarts : List Char → List Char → Bool
  | _, [] => true
  | [], _ :: _ => false
  | c :: cs, d :: ds => c = d && chrsStarts cs ds

def strStarts (r s : String) : Bool := chrsStarts r.data s.data

def strEnds (r s : String) : Bool := chrsStarts r.data.reverse s.data.reverse

/-! ### The resolvers' shared data model

`PortSuffixMapping` is the four-dict record of both resolver modules; the
orchestrating loops of `discover_service_instances` and
`detect_service_instances` are identical (nested `setdefault` plus one
suffix-dict assignment), so both are expressed as a fold of `stepItem` over
a stream of (kind, service, instance, suffix, port) items produced by the
respective `_split`.
-/

structure PortSuffixMapping where
  pub : List (String × String)
  sub : List (String × String)
  cln : List (String × String)
  srv : List (String × String)
deriving DecidableEq

def emptyPSM : PortSuffixMapping := ⟨[], [], [], []⟩

inductive PKind
  | pub
  | sub
  | cln
  | srv
deriving DecidableEq

def kindGet : PKind → PortSuffixMapping → List (String × String)
  | .pub, psm => psm.pub
  | .sub, psm => psm.sub
  | .cln, psm => psm.cln
  | .srv, psm => psm.srv

def kindUpdate (k : PKind) (f : List (String × String) → List (String × String))
    (psm : PortSuffixMapping) : PortSuffixMapping :=
  match k with
  | .pub => { psm with pub := f psm.pub }
  | .sub => { psm with sub := f psm.sub }
  | .cln => { psm with cln := f psm.cln }
  | .srv => { psm with srv := f psm.srv }

structure Item where
  kind : PKind
  svc : String
  ins : String
  suf : String
  port : String
deriving DecidableEq

abbrev ServiceMap := List (String × List (String × PortSuffixMapping))

/-- One iteration of the resolver body:
`psm(svc, ins).<kind>[suf] = port` with `psm` the nested `setdefault`. -/
def stepItem (out : ServiceMap) (it : Item) : ServiceMap :=
  let inner := (dlookup out it.svc).getD []
  let psm := (dlookup inner it.ins).getD emptyPSM
  dinsert out it.svc (dinsert inner it.ins (kindUpdate it.kind (fun d => dinsert d it.suf it.port) psm))

def tagItems (k : PKind) (ts : List (String × String × String × String)) : List Item :=
  ts.map (fun t => ⟨k, t.1, t.2.1, t.2.2.1, t.2.2.2⟩)

/-- Model of `_split` of service_discoverer.py: iterate the registry services, then
their instance-name strings (dots stripped from both ends), then the
port names; yield only exact `instance.suffix` shapes. -/
def discSplit (reg : List (String × List String)) (ports : List String) :
    List (String × String × String × String) :=
  reg.flatMap (fun sp =>
    sp.2.flatMap (fun pre =>
      ports.filterMap (fun pn =>
        match splitDots pn with
        | [a, b] => if stripDots pre = a then some (sp.1, stripDots pre, b, pn) else none
        | _ => none)))

def discoverItems (reg : List (String × List String)) (pub sub cln srv : List String) :
    List Item :=
  tagItems .pub (discSplit reg pub) ++ tagItems .sub (discSplit reg sub) ++
    tagItems .cln (discSplit reg cln) ++ tagItems .srv (discSplit reg srv)

/-- Model of `discover_service_instances` of service_discoverer.py. -/
def discover_service_instances (reg : List (String × List String))
    (pub sub cln srv : List String) : ServiceMap :=
  (discoverItems reg pub sub cln srv).foldl stepItem []

/-- Model of `_split` of service_detector.py: `pn.split(".", 2)` and the
three/two/one-component cases. -/
def detSplit (ports : List String) : List (String × String × String × String) :=
  ports.map (fun pn =>
    match splitDotsMaxAux 2 pn.data [] with
    | [a, b, c] => (String.mk a, String.mk b, String.mk c, pn)
    | [a, b] => (String.mk a, "", String.mk b, pn)
    | [a] => ("", "", String.mk a, pn)
    | _ => ("", "", pn, pn))

def detectItems (pub sub cln srv : List String) : List Item :=
  tagItems .pub (detSplit pub) ++ tagItems .sub (detSplit sub) ++
    tagItems .cln (detSplit cln) ++ tagItems .srv (detSplit srv)

/-- Model of `detect_service_instances` of service_detector.py. -/
def detect_service_instances (pub sub cln srv : List String) : ServiceMap :=
  (detectItems pub sub cln srv).foldl stepItem []

/-! ### Observation helpers over the nested result -/

def innerKeysOf (out : ServiceMap) (svc : String) : List String :=
  dkeys ((dlookup out svc).getD [])

def psmAt (out : ServiceMap) (svc ins : String) : PortSuffixMapping :=
  (dlookup ((dlookup out svc).getD []) ins).getD emptyPSM

def psmHasPort (psm : PortSuffixMapping) (p : String) : Bool :=
  [PKind.pub, PKind.sub, PKind.cln, PKind.srv].any
    (fun k => (kindGet k psm).any (fun sp => sp.2 == p))

/-- Whether `p` occurs as a full port name anywhere in the resolver result. -/
def portAppears (out : ServiceMap) (p : String) : Bool :=
  out.any (fun se => se.2.any (fun ie => psmHasPort ie.2 p))

/-- First-encounter key accumulation: the order in which keys enter a
Python dict. -/
def insKey (ks : List String) (k : String) : List String :=
  if k ∈ ks then ks else ks ++ [k]

def svcSeq (items : List Item) : List String := items.map Item.svc

def insSeq (items : List Item) (svc : String) : List String :=
  items.filterMap (fun it => if it.svc = svc then some it.ins else none)

def cellPairs (items : List Item) (svc ins : String) (k : PKind) :
    List (String × String) :=
  items.filterMap (fun it =>
    if it.svc = svc ∧ it.ins = ins ∧ it.kind = k then some (it.suf, it.port) else none)

/-! ### The auto-configuration orchestrator (node_proxy.py)

`perform_automatic_port_id_allocation` is embedded as a deterministic
function of an abstract remote behaviour.  Every register/command round
trip appends a `Request` to the trace; the remote's answer may depend on
the requests completed so far (so register writes take effect for later
reads) and `none` models a response timeout.  The unbounded
`for i in count()` enumeration loop carries explicit fuel.
-/

/-- The `uavcan.register.Value_1_0` union, restricted to the variants the
orchestrator distinguishes: the empty variant (unset register), the string
variant (cookie), and `natural16` (port-ID registers). -/
inductive RegValue
  | empty
  | str (s : String)
  | nat16 (xs : List Nat)
deriving DecidableEq

inductive Request
  | read (name : String)
  | write (name : String) (v : RegValue)
  | list (idx : Nat)
  | command (code : Nat)
deriving DecidableEq

def Request.isWrite : Request → Bool
  | .write _ _ => true
  | _ => false

def Request.isCmd : Request → Bool
  | .command _ => true
  | _ => false

/-- A remote node's behaviour: each field answers one request given the
history of already-completed requests; `none` is a response timeout
(for `command`, a timeout is merely logged by the orchestrator). -/
structure Remote where
  access : List Request → String → Option RegValue → Option RegValue
  listReg : List Request → Nat → Option String
  command : List Request → Nat → Option Unit

inductive Phase
  | checkCookie
  | enumerate
  | readPorts
  | writeRegs
deriving DecidableEq

inductive RunError
  | timeout (ph : Phase)
  | badValue (name : String)
  | outOfFuel
deriving DecidableEq

inductive Outcome
  | notCapable
  | alreadyConfigured
  | rejected
  | configured (mismatches : List String)
deriving DecidableEq

/-- Model of `PortAssignment` of node_proxy.py: name/ID dicts for each port kind. -/
structure PortAssignment where
  pub : List (String × Nat)
  sub : List (String × Nat)
  cln : List (String × Nat)
  srv : List (String × Nat)
deriving DecidableEq

inductive CookieDecision
  | notCapable
  | alreadyConfigured
  | rejected
  | needsConfig
deriving DecidableEq

def cookieRegName : String := "udral.pnp.cookie"

/-- Cookie check (node_proxy.py lines 64-76): read `udral.pnp.cookie`;
a non-string value means the node is not PnP-capable; the string value is
stripped and lowercased before being compared first with the expected
cookie and then with the `"reject"` sentinel. -/
def cookiePhase (remote : Remote) (expected : String) :
    List Request × Except RunError CookieDecision :=
  let tr := [Request.read cookieRegName]
  match remote.access [] cookieRegName none with
  | none => (tr, .error (.timeout .checkCookie))
  | some (.str s) =>
    if pyLower (pyStrip s) = expected then (tr, .ok .alreadyConfigured)
    else if pyLower (pyStrip s) = "reject" then (tr, .ok .rejected)
    else (tr, .ok .needsConfig)
  | some _ => (tr, .ok .notCapable)

/-- Register enumeration (lines 83-92): `list(i)` for `i = 0, 1, …` until
an empty name arrives; a timeout is fatal.  The fuel argument bounds the
loop, which Python leaves unbounded. -/
def enumeratePhase (remote : Remote) : Nat → List Request → Nat → List String →
    List Request × Except RunError (List String)
  | 0, tr, _, _ => (tr, .error .outOfFuel)
  | fuel + 1, tr, i, acc =>
    match remote.listReg tr i with
    | none => (tr ++ [Request.list i], .error (.timeout .enumerate))
    | some nm =>
      if nm = "" then (tr ++ [Request.list i], .ok acc)
      else enumeratePhase remote fuel (tr ++ [Request.list i]) (i + 1) (acc ++ [nm])

/-- Model of `extract_ports` (lines 97-99), including the source's slice
`r[len(s) - 1 : -len(e)]`. -/
def pySlice (r : String) (a b : Nat) : String :=
  String.mk ((r.data.drop a).take (b - a))

def extract_ports (available : List String) (kind : String) : List String :=
  let s := "uavcan." ++ kind ++ "."
  let e := ".id"
  (available.filter (fun r => strStarts r s && strEnds r e)).map
    (fun r => pySlice r (s.length - 1) (r.length - e.length))

/-- The register name `read_port_id` and `ports_to_registers` build:
`f"uavcan.{kind}.{port_name}.id"`. -/
def regName (kind n : String) : String :=
  "uavcan." ++ (kind ++ ("." ++ (n ++ ".id")))

/-- Model of `int(register.ValueProxy(value))`: succeeds on a single-element
numeric value, raises otherwise. -/
def valueToInt : RegValue → Option Nat
  | .nat16 [x] => some x
  | _ => none

/-- Model of `read_port_id` (lines 104-107) iterated over one kind's port list,
building the kind's name→ID dict; a timeout is fatal and a non-numeric
response aborts the run like the uncaught Python exception would. -/
def readIds (remote : Remote) (kind : String) :
    List String → List Request → List (String × Nat) →
    List Request × Except RunError (List (String × Nat))
  | [], tr, acc => (tr, .ok acc)
  | n :: rest, tr, acc =>
    match remote.access tr (regName kind n) none with
    | none => (tr ++ [Request.read (regName kind n)], .error (.timeout .readPorts))
    | some v =>
      match valueToInt v with
      | none => (tr ++ [Request.read (regName kind n)], .error (.badValue (regName kind n)))
      | some x => readIds remote kind rest (tr ++ [Request.read (regName kind n)]) (dinsert acc n x)

/-- Lines 109-114: assemble the current `PortAssignment` from the four
extracted port lists. -/
def readAllPorts (remote : Remote) (available : List String) (tr : List Request) :
    List Request × Except RunError PortAssignment :=
  match readIds remote "pub" (extract_ports available "pub") tr [] with
  | (tr, .error e) => (tr, .error e)
  | (tr, .ok pubs) =>
    match readIds remote "sub" (extract_ports available "sub") tr [] with
    | (tr, .error e) => (tr, .error e)
    | (tr, .ok subs) =>
      match readIds remote "cln" (extract_ports available "cln") tr [] with
      | (tr, .error e) => (tr, .error e)
      | (tr, .ok clns) =>
        match readIds remote "srv" (extract_ports available "srv") tr [] with
        | (tr, .error e) => (tr, .error e)
        | (tr, .ok srvs) => (tr, .ok ⟨pubs, subs, clns, srvs⟩)

/-- Model of `ports_to_registers` (lines 124-128).  `register.Natural16` stores the
ID as a 16-bit natural. -/
def ports_to_registers (kind : String) (ports : List (String × Nat)) :
    List (String × RegValue) :=
  ports.map (fun p => (regName kind p.1, RegValue.nat16 [p.2 % 65536]))

/-- Model of `final_registers` (lines 130-135): the four kinds' registers in order,
then the cookie register last. -/
def buildFinalRegisters (expected : String) (np : PortAssignment) :
    List (String × RegValue) :=
  let ins := fun (d : List (String × RegValue)) (kv : String × RegValue) => dinsert d kv.1 kv.2
  let d := (ports_to_registers "pub" np.pub).foldl ins []
  let d := (ports_to_registers "sub" np.sub).foldl ins d
  let d := (ports_to_registers "cln" np.cln).foldl ins d
  let d := (ports_to_registers "srv" np.srv).foldl ins d
  dinsert d cookieRegName (.str expected)

/-- The write loop (lines 137-141): every register is written through
`access`; a timeout raises (fatal), a response different from the written
value is only recorded (logged) per register name. -/
def writeRegsPhase (remote : Remote) :
    List (String × RegValue) → List Request → List String →
    List Request × Except RunError (List String)
  | [], tr, ms => (tr, .ok ms)
  | (rn, rv) :: rest, tr, ms =>
    match remote.access tr rn (some rv) with
    | none => (tr ++ [Request.write rn rv], .error (.timeout .writeRegs))
    | some v =>
      writeRegsPhase remote rest (tr ++ [Request.write rn rv])
        (if v = rv then ms else ms ++ [rn])

/-- Constants `COMMAND_STORE_PERSISTENT_STATES` and `COMMAND_RESTART` of
`uavcan.node.ExecuteCommand_1_1`. -/
def cmdStore : Nat := 65530
def cmdRestart : Nat := 65535

/-- Lines 145-158: both commands are issued unconditionally; missing
responses are only logged. -/
def commandPhase (remote : Remote) (tr : List Request) : List Request :=
  let _ := remote.command tr cmdStore
  let _ := remote.command (tr ++ [Request.command cmdStore]) cmdRestart
  tr ++ [Request.command cmdStore, Request.command cmdRestart]

/-- The tail of the procedure once the port `PortAssignment` has been
read: invoke the policy, write the registers, then persist/restart. -/
def runFromWrite (remote : Remote) (expected : String)
    (alloc : PortAssignment → PortAssignment) (original : PortAssignment)
    (tr : List Request) : List Request × Except RunError Outcome :=
  match writeRegsPhase remote (buildFinalRegisters expected (alloc original)) tr [] with
  | (tr, .error e) => (tr, .error e)
  | (tr, .ok ms) => (commandPhase remote tr, .ok (.configured ms))

/-- The tail of the procedure once the register names are enumerated. -/
def runFromRead (remote : Remote) (expected : String)
    (alloc : PortAssignment → PortAssignment) (available : List String)
    (tr : List Request) : List Request × Except RunError Outcome :=
  match readAllPorts remote available tr with
  | (tr, .error e) => (tr, .error e)
  | (tr, .ok original) => runFromWrite remote expected alloc original tr

/-- The tail of the procedure once the cookie check decided that
configuration is needed. -/
def runFromEnum (remote : Remote) (expected : String)
    (alloc : PortAssignment → PortAssignment) (fuel : Nat)
    (tr : List Request) : List Request × Except RunError Outcome :=
  match enumeratePhase remote fuel tr 0 [] with
  | (tr, .error e) => (tr, .error e)
  | (tr, .ok available) => runFromRead remote expected alloc available tr

/-- Model of `perform_automatic_port_id_allocation` (node_proxy.py lines 31-160) as
a whole: the request trace paired with the outcome or the raised error. -/
def runAlloc (remote : Remote) (expected : String)
    (alloc : PortAssignment → PortAssignment) (fuel : Nat) :
    List Request × Except RunError Outcome :=
  match cookiePhase remote expected with
  | (tr, .error e) => (tr, .error e)
  | (tr, .ok .notCapable) => (tr, .ok .notCapable)
  | (tr, .ok .alreadyConfigured) => (tr, .ok .alreadyConfigured)
  | (tr, .ok .rejected) => (tr, .ok .rejected)
  | (tr, .ok .needsConfig) => runFromEnum remote expected alloc fuel tr

/-! ### A well-behaved simulated remote node

The concrete claims run the orchestrator against a register store that
answers every request: reads return the stored value (empty if absent),
writes store the value and echo it, enumeration walks the store's keys and
terminates with an empty name. -/

abbrev Store := List (String × RegValue)

def applyReq (st : Store) : Request → Store
  | .write n v => dinsert st n v
  | _ => st

def applyHist (st : Store) (hist : List Request) : Store :=
  hist.foldl applyReq st

def storeRemote (init : Store) : Remote where
  access := fun hist name v =>
    match v with
    | none => some ((dlookup (applyHist init hist) name).getD .empty)
    | some w => some w
  listReg := fun hist i => some (((applyHist init hist).map Prod.fst).getD i "")
  command := fun _ _ => some ()

/-- A remote that answers reads and enumeration from a one-register store
(cookie `"x"`) but never responds to register writes. -/
def timeoutOnWriteRemote : Remote where
  access := fun hist name v =>
    match v with
    | none => (storeRemote [(cookieRegName, .str "x")]).access hist name none
    | some _ => none
  listReg := (storeRemote [(cookieRegName, .str "x")]).listReg
  command := fun _ _ => some ()

/-- A remote that accepts every write but echoes back a wrong value
(`empty`), and otherwise behaves like the one-register store. -/
def wrongEchoRemote : Remote where
  access := fun hist name v =>
    match v with
    | none => (storeRemote [(cookieRegName, .str "x")]).access hist name none
    | some _ => some .empty
  listReg := (storeRemote [(cookieRegName, .str "x")]).listReg
  command := fun _ _ => some ()

/-- A remote that never responds to anything. -/
def deadRemote : Remote where
  access := fun _ _ _ => none
  listReg := fun _ _ => none
  command := fun _ _ => none

def trivAlloc : PortAssignment → PortAssignment := fun _ => ⟨[], [], [], []⟩

def onePortAlloc : PortAssignment → PortAssignment := fun _ => ⟨[("p", 7)], [], [], []⟩

/-- A trace that contains neither register writes nor commands. -/
def ReadOnlyTrace (tr : List Request) : Prop :=
  ∀ r ∈ tr, Request.isWrite r = false ∧ Request.isCmd r = false

/-- The registry-driven match criterion in the claim's own words: exactly
two `.`-separated components, the first equal to a registered instance
prefix after stripping (the source strips dots from both ends). -/
def specRegistryMatch (reg : List (String × List String)) (p : String) : Bool :=
  match splitDots p with
  | [a, _] => reg.any (fun sp => sp.2.any (fun pre => stripDots pre == a))
  | _ => false

/-- Stripping only trailing dots, as the claim (but not the source)
describes the instance-prefix normalization. -/
def specTrailingStrip (s : String) : String :=
  String.mk ((s.data.reverse.dropWhile (fun c => c = '.')).reverse)

deriving instance DecidableEq for Except

def wrReq (kv : String × RegValue) : Request := .write kv.1 kv.2

/-- Every item the resolvers' `_split` emits satisfies this shape
invariant: the full port name is the instance name, a dot, and the
suffix. -/
def GoodItem (it : Item) : Prop :=
  it.port.data = it.ins.data ++ '.' :: it.suf.data

/-! ## Dictionary lemmas -/

theorem dinsert_of_not_mem {α : Type} {d : List (String × α)} {k : String} (v : α)
    (h : k ∉ dkeys d) : dinsert d k v = d ++ [(k, v)] := by
  induction d with
  | nil => rfl
  | cons p d ih =>
    have hp : p.1 ≠ k := by
      intro he
      exact h (by simp [dkeys, he])
    have hd : k ∉ dkeys d := by
      intro he
      exact h (by simp [dkeys] at he ⊢; exact Or.inr he)
    simp [dinsert, hp, ih hd]

theorem dkeys_dinsert {α : Type} (d : List (String × α)) (k : String) (v : α) :
    dkeys (dinsert d k v) = if k ∈ dkeys d then dkeys d else dkeys d ++ [k] := by
  induction d with
  | nil => simp [dinsert, dkeys]
  | cons p d ih =>
    by_cases hp : p.1 = k
    · simp [dinsert, hp, dkeys]
    · have hne : ¬k = p.1 := fun he => hp he.symm
      have hmem : (k ∈ dkeys (p :: d)) = (k ∈ dkeys d) := by
        simp [dkeys, List.mem_cons, hne]
      by_cases hk : k ∈ dkeys d
      · have h1 : dkeys (dinsert d k v) = dkeys d := by rw [ih, if_pos hk]
        have h2 : k ∈ dkeys (p :: d) := hmem ▸ hk
        rw [show dinsert (p :: d) k v = p :: dinsert d k v from by rw [dinsert, if_neg hp],
          if_pos h2]
        show p.1 :: dkeys (dinsert d k v) = dkeys (p :: d)
        rw [h1]
        rfl
      · have h1 : dkeys (dinsert d k v) = dkeys d ++ [k] := by rw [ih, if_neg hk]
        have h2 : k ∉ dkeys (p :: d) := fun hin => hk (hmem ▸ hin)
        have : dkeys (p :: dinsert d k v) = dkeys (p :: d) ++ [k] := by
          simp [dkeys] at h1 ⊢
          exact h1
        rw [show dinsert (p :: d) k v = p :: dinsert d k v from by rw [dinsert, if_neg hp],
          this, if_neg h2]

theorem dlookup_dinsert_self {α : Type} (d : List (String × α)) (k : String) (v : α) :
    dlookup (dinsert d k v) k = some v := by
  induction d with
  | nil => simp [dinsert, dlookup]
  | cons p d ih =>
    by_cases hp : p.1 = k
    · simp [dinsert, hp, dlookup]
    · simp [dinsert, hp, dlookup, ih]

theorem dlookup_dinsert_ne {α : Type} (d : List (String × α)) {k' k : String} (v : α)
    (h : k' ≠ k) : dlookup (dinsert d k' v) k = dlookup d k := by
  induction d with
  | nil => simp [dinsert, dlookup, h]
  | cons p d ih =>
    by_cases hp : p.1 = k'
    · simp [dinsert, hp, dlookup, h, hp ▸ h]
    · simp only [dinsert, if_neg hp, dlookup, ih]

theorem dlookup_mem {α : Type} {d : List (String × α)} {k : String} {v : α}
    (h : dlookup d k = some v) : (k, v) ∈ d := by
  induction d with
  | nil => simp [dlookup] at h
  | cons p d ih =>
    by_cases hp : p.1 = k
    · rw [dlookup, if_pos hp] at h
      have hv : p.2 = v := by injection h
      have hpe : p = (k, v) := by
        obtain ⟨a, b⟩ := p
        simp only at hp hv
        rw [hp, hv]
      rw [← hpe]
      exact List.mem_cons_self _ _
    · rw [dlookup, if_neg hp] at h
      exact List.mem_cons_of_mem _ (ih h)

theorem mem_dinsert_self {α : Type} (d : List (String × α)) (k : String) (v : α) :
    (k, v) ∈ dinsert d k v := by
  induction d with
  | nil => simp [dinsert]
  | cons p d ih =>
    by_cases hp : p.1 = k
    · simp [dinsert, hp]
    · simp [dinsert, hp, ih]

theorem mem_dinsert_of_ne {α : Type} {d : List (String × α)} {p : String × α}
    (hp : p ∈ d) {k : String} (v : α) (h : p.1 ≠ k) : p ∈ dinsert d k v := by
  induction d with
  | nil => cases hp
  | cons q d ih =>
    by_cases hq : q.1 = k
    · rcases List.mem_cons.mp hp with rfl | hm
      · exact absurd hq h
      · simp [dinsert, hq, hm]
    · rcases List.mem_cons.mp hp with rfl | hm
      · simp [dinsert, hq]
      · simp [dinsert, hq, ih hm]

theorem mem_dinsert {α : Type} {d : List (String × α)} {k : String} {v : α} {p : String × α}
    (h : p ∈ dinsert d k v) : p ∈ d ∨ p = (k, v) := by
  induction d with
  | nil => simpa [dinsert] using h
  | cons q d ih =>
    by_cases hq : q.1 = k
    · rw [dinsert, if_pos hq] at h
      rcases List.mem_cons.mp h with rfl | hm
      · exact Or.inr rfl
      · exact Or.inl (List.mem_cons_of_mem _ hm)
    · rw [dinsert, if_neg hq] at h
      rcases List.mem_cons.mp h with rfl | hm
      · exact Or.inl (List.mem_cons_self _ _)
      · rcases ih hm with hm' | hm'
        · exact Or.inl (List.mem_cons_of_mem _ hm')
        · exact Or.inr hm'

/-! ## Orchestrator phase lemmas -/

theorem cookiePhase_cases (remote : Remote) (expected : String) :
    cookiePhase remote expected = ([Request.read cookieRegName], .error (.timeout .checkCookie)) ∨
    ∃ d, cookiePhase remote expected = ([Request.read cookieRegName], .ok d) := by
  unfold cookiePhase
  cases hacc : remote.access [] cookieRegName none with
  | none => exact Or.inl rfl
  | some v =>
    cases v with
    | empty => exact Or.inr ⟨_, rfl⟩
    | nat16 xs => exact Or.inr ⟨_, rfl⟩
    | str s =>
      by_cases h1 : pyLower (pyStrip s) = expected
      · exact Or.inr ⟨.alreadyConfigured, by simp [h1]⟩
      · by_cases h2 : pyLower (pyStrip s) = "reject"
        · have h1' : ¬("reject" = expected) := fun he => h1 (h2.trans he)
          exact Or.inr ⟨.rejected, by simp [h1, h2, h1']⟩
        · exact Or.inr ⟨.needsConfig, by simp [h1, h2]⟩

theorem cookiePhase_str (remote : Remote) (expected s : String)
    (hacc : remote.access [] cookieRegName none = some (.str s)) :
    cookiePhase remote expected =
      ([Request.read cookieRegName],
        .ok (if pyLower (pyStrip s) = expected then .alreadyConfigured
             else if pyLower (pyStrip s) = "reject" then .rejected else .needsConfig)) := by
  unfold cookiePhase
  rw [hacc]
  by_cases h1 : pyLower (pyStrip s) = expected
  · simp [h1]
  · by_cases h2 : pyLower (pyStrip s) = "reject"
    · have h1' : ¬("reject" = expected) := fun he => h1 (h2.trans he)
      simp [h1, h2, h1']
    · simp [h1, h2]

theorem runAlloc_unfold (remote : Remote) (expected : String)
    (alloc : PortAssignment → PortAssignment) (fuel : Nat) :
    runAlloc remote expected alloc fuel =
      match cookiePhase remote expected with
      | (tr, .error e) => (tr, .error e)
      | (tr, .ok .notCapable) => (tr, .ok .notCapable)
      | (tr, .ok .alreadyConfigured) => (tr, .ok .alreadyConfigured)
      | (tr, .ok .rejected) => (tr, .ok .rejected)
      | (tr, .ok .needsConfig) => runFromEnum remote expected alloc fuel tr := rfl

theorem runAlloc_of_already {remote : Remote} {expected : String}
    (alloc : PortAssignment → PortAssignment) (fuel : Nat) {tr : List Request}
    (h : cookiePhase remote expected = (tr, .ok .alreadyConfigured)) :
    runAlloc remote expected alloc fuel = (tr, .ok .alreadyConfigured) := by
  rw [runAlloc_unfold, h]

theorem runAlloc_of_rejected {remote : Remote} {expected : String}
    (alloc : PortAssignment → PortAssignment) (fuel : Nat) {tr : List Request}
    (h : cookiePhase remote expected = (tr, .ok .rejected)) :
    runAlloc remote expected alloc fuel = (tr, .ok .rejected) := by
  rw [runAlloc_unfold, h]

theorem runAlloc_of_needsConfig {remote : Remote} {expected : String}
    (alloc : PortAssignment → PortAssignment) (fuel : Nat) {tr : List Request}
    (h : cookiePhase remote expected = (tr, .ok .needsConfig)) :
    runAlloc remote expected alloc fuel = runFromEnum remote expected alloc fuel tr := by
  rw [runAlloc_unfold, h]

theorem enumeratePhase_trace (remote : Remote) :
    ∀ fuel tr i acc, ∃ t, (enumeratePhase remote fuel tr i acc).1 = tr ++ t ∧
      ∀ r ∈ t, ∃ j, r = Request.list j := by
  intro fuel
  induction fuel with
  | zero =>
    intro tr i acc
    exact ⟨[], by simp [enumeratePhase], by simp⟩
  | succ fuel ih =>
    intro tr i acc
    unfold enumeratePhase
    split
    · exact ⟨[Request.list i], rfl, by simp⟩
    · split
      · exact ⟨[Request.list i], rfl, by simp⟩
      · rename_i nm heq hnm
        obtain ⟨t, ht, hro⟩ := ih (tr ++ [Request.list i]) (i + 1) (acc ++ [nm])
        refine ⟨Request.list i :: t, by rw [ht]; simp, ?_⟩
        intro r hr
        rcases List.mem_cons.mp hr with rfl | hr
        · exact ⟨i, rfl⟩
        · exact hro r hr

theorem enumeratePhase_err (remote : Remote) :
    ∀ fuel tr i acc e, (enumeratePhase remote fuel tr i acc).2 = .error e →
      e = .timeout .enumerate ∨ e = .outOfFuel := by
  intro fuel
  induction fuel with
  | zero =>
    intro tr i acc e h
    simp [enumeratePhase] at h
    exact Or.inr h.symm
  | succ fuel ih =>
    intro tr i acc e h
    unfold enumeratePhase at h
    split at h
    · simp at h
      exact Or.inl h.symm
    · split at h
      · simp at h
      · exact ih _ _ _ _ h

theorem readIds_trace (remote : Remote) (kind : String) :
    ∀ ns tr acc, ∃ t, (readIds remote kind ns tr acc).1 = tr ++ t ∧
      ∀ r ∈ t, ∃ n, r = Request.read n := by
  intro ns
  induction ns with
  | nil =>
    intro tr acc
    exact ⟨[], by simp [readIds], by simp⟩
  | cons n rest ih =>
    intro tr acc
    unfold readIds
    split
    · exact ⟨[Request.read (regName kind n)], rfl, by simp⟩
    · split
      · exact ⟨[Request.read (regName kind n)], rfl, by simp⟩
      · rename_i v hacc x hvi
        obtain ⟨t, ht, hro⟩ := ih (tr ++ [Request.read (regName kind n)]) (dinsert acc n x)
        refine ⟨Request.read (regName kind n) :: t, by rw [ht]; simp, ?_⟩
        intro r hr
        rcases List.mem_cons.mp hr with rfl | hr
        · exact ⟨_, rfl⟩
        · exact hro r hr

theorem readIds_err (remote : Remote) (kind : String) :
    ∀ ns tr acc e, (readIds remote kind ns tr acc).2 = .error e →
      e = .timeout .readPorts ∨ ∃ n, e = .badValue n := by
  intro ns
  induction ns with
  | nil =>
    intro tr acc e h
    simp [readIds] at h
  | cons n rest ih =>
    intro tr acc e h
    unfold readIds at h
    split at h
    · simp at h
      exact Or.inl h.symm
    · split at h
      · simp at h
        exact Or.inr ⟨_, h.symm⟩
      · exact ih _ _ _ h

theorem readAllPorts_trace (remote : Remote) (available : List String) (tr : List Request) :
    ∃ t, (readAllPorts remote available tr).1 = tr ++ t ∧
      ∀ r ∈ t, ∃ n, r = Request.read n := by
  unfold readAllPorts
  obtain ⟨t1, ht1, hro1⟩ := readIds_trace remote "pub" (extract_ports available "pub") tr []
  rcases h1 : readIds remote "pub" (extract_ports available "pub") tr [] with ⟨tr1, res1⟩
  rw [h1] at ht1
  simp only at ht1
  cases res1 with
  | error e => exact ⟨t1, ht1, hro1⟩
  | ok pubs =>
    dsimp only
    obtain ⟨t2, ht2, hro2⟩ := readIds_trace remote "sub" (extract_ports available "sub") tr1 []
    rcases h2 : readIds remote "sub" (extract_ports available "sub") tr1 [] with ⟨tr2, res2⟩
    rw [h2] at ht2
    simp only at ht2
    have hro12 : ∀ r ∈ t1 ++ t2, ∃ n, r = Request.read n := by
      intro r hr
      rcases List.mem_append.mp hr with hr | hr
      · exact hro1 r hr
      · exact hro2 r hr
    have ht12 : tr2 = tr ++ (t1 ++ t2) := by rw [ht2, ht1, List.append_assoc]
    cases res2 with
    | error e => exact ⟨t1 ++ t2, ht12, hro12⟩
    | ok subs =>
      dsimp only
      obtain ⟨t3, ht3, hro3⟩ := readIds_trace remote "cln" (extract_ports available "cln") tr2 []
      rcases h3 : readIds remote "cln" (extract_ports available "cln") tr2 [] with ⟨tr3, res3⟩
      rw [h3] at ht3
      simp only at ht3
      have hro123 : ∀ r ∈ t1 ++ t2 ++ t3, ∃ n, r = Request.read n := by
        intro r hr
        rcases List.mem_append.mp hr with hr | hr
        · exact hro12 r hr
        · exact hro3 r hr
      have ht123 : tr3 = tr ++ (t1 ++ t2 ++ t3) := by
        rw [ht3, ht12]
        simp [List.append_assoc]
      cases res3 with
      | error e => exact ⟨t1 ++ t2 ++ t3, ht123, hro123⟩
      | ok clns =>
        dsimp only
        obtain ⟨t4, ht4, hro4⟩ := readIds_trace remote "srv" (extract_ports available "srv") tr3 []
        rcases h4 : readIds remote "srv" (extract_ports available "srv") tr3 [] with ⟨tr4, res4⟩
        rw [h4] at ht4
        simp only at ht4
        have hro1234 : ∀ r ∈ t1 ++ t2 ++ t3 ++ t4, ∃ n, r = Request.read n := by
          intro r hr
          rcases List.mem_append.mp hr with hr | hr
          · exact hro123 r hr
          · exact hro4 r hr
        have ht1234 : tr4 = tr ++ (t1 ++ t2 ++ t3 ++ t4) := by
          rw [ht4, ht123]
          simp [List.append_assoc]
        cases res4 with
        | error e => exact ⟨t1 ++ t2 ++ t3 ++ t4, ht1234, hro1234⟩
        | ok srvs => exact ⟨t1 ++ t2 ++ t3 ++ t4, ht1234, hro1234⟩

theorem readAllPorts_err (remote : Remote) (available : List String) (tr : List Request)
    (e : RunError) (h : (readAllPorts remote available tr).2 = .error e) :
    e = .timeout .readPorts ∨ ∃ n, e = .badValue n := by
  unfold readAllPorts at h
  rcases h1 : readIds remote "pub" (extract_ports available "pub") tr [] with ⟨tr1, res1⟩
  rw [h1] at h
  cases res1 with
  | error e1 =>
    simp only at h
    have he : e1 = e := by injection h
    exact he ▸ readIds_err remote "pub" _ _ _ _ (by rw [h1])
  | ok pubs =>
    dsimp only at h
    rcases h2 : readIds remote "sub" (extract_ports available "sub") tr1 [] with ⟨tr2, res2⟩
    rw [h2] at h
    cases res2 with
    | error e2 =>
      simp only at h
      have he : e2 = e := by injection h
      exact he ▸ readIds_err remote "sub" _ _ _ _ (by rw [h2])
    | ok subs =>
      dsimp only at h
      rcases h3 : readIds remote "cln" (extract_ports available "cln") tr2 [] with ⟨tr3, res3⟩
      rw [h3] at h
      cases res3 with
      | error e3 =>
        simp only at h
        have he : e3 = e := by injection h
        exact he ▸ readIds_err remote "cln" _ _ _ _ (by rw [h3])
      | ok clns =>
        dsimp only at h
        rcases h4 : readIds remote "srv" (extract_ports available "srv") tr3 [] with ⟨tr4, res4⟩
        rw [h4] at h
        cases res4 with
        | error e4 =>
          simp only at h
          have he : e4 = e := by injection h
          exact he ▸ readIds_err remote "srv" _ _ _ _ (by rw [h4])
        | ok srvs => simp at h

theorem writeRegsPhase_trace (remote : Remote) :
    ∀ regs tr ms, ∃ regs' rest, regs = regs' ++ rest ∧
      (writeRegsPhase remote regs tr ms).1 = tr ++ regs'.map wrReq ∧
      (∀ ms', (writeRegsPhase remote regs tr ms).2 = .ok ms' → rest = []) := by
  intro regs
  induction regs with
  | nil =>
    intro tr ms
    exact ⟨[], [], rfl, by simp [writeRegsPhase], by simp⟩
  | cons kv rest ih =>
    intro tr ms
    obtain ⟨rn, rv⟩ := kv
    unfold writeRegsPhase
    split
    · refine ⟨[(rn, rv)], rest, rfl, by simp [wrReq], ?_⟩
      intro ms' hms
      exact Except.noConfusion hms
    · rename_i v hacc
      obtain ⟨regs', rest', heq, htr, hok⟩ :=
        ih (tr ++ [Request.write rn rv]) (if v = rv then ms else ms ++ [rn])
      refine ⟨(rn, rv) :: regs', rest', by rw [heq, List.cons_append], ?_, hok⟩
      rw [htr]
      simp [wrReq]

theorem writeRegsPhase_err (remote : Remote) :
    ∀ regs tr ms e, (writeRegsPhase remote regs tr ms).2 = .error e →
      e = .timeout .writeRegs := by
  intro regs
  induction regs with
  | nil =>
    intro tr ms e h
    simp [writeRegsPhase] at h
  | cons kv rest ih =>
    intro tr ms e h
    obtain ⟨rn, rv⟩ := kv
    unfold writeRegsPhase at h
    split at h
    · simp at h
      exact h.symm
    · exact ih _ _ _ h

theorem writeRegsPhase_complete (remote : Remote)
    (hresp : ∀ hist n v, remote.access hist n (some v) ≠ none) :
    ∀ regs tr ms, ∃ ms', writeRegsPhase remote regs tr ms = (tr ++ regs.map wrReq, .ok ms') := by
  intro regs
  induction regs with
  | nil =>
    intro tr ms
    exact ⟨ms, by simp [writeRegsPhase]⟩
  | cons kv rest ih =>
    intro tr ms
    obtain ⟨rn, rv⟩ := kv
    unfold writeRegsPhase
    split
    · rename_i hacc
      exact absurd hacc (hresp tr rn rv)
    · rename_i v hacc
      obtain ⟨ms', hrec⟩ := ih (tr ++ [Request.write rn rv]) (if v = rv then ms else ms ++ [rn])
      refine ⟨ms', ?_⟩
      rw [hrec]
      simp [wrReq]

theorem commandPhase_eq (remote : Remote) (tr : List Request) :
    commandPhase remote tr = tr ++ [Request.command cmdStore, Request.command cmdRestart] := rfl

/-! ## Store-effect lemmas -/

theorem applyHist_append (st : Store) (l₁ l₂ : List Request) :
    applyHist st (l₁ ++ l₂) = applyHist (applyHist st l₁) l₂ := by
  simp [applyHist, List.foldl_append]

theorem applyReq_no_write {st : Store} {r : Request} (h : Request.isWrite r = false) :
    applyReq st r = st := by
  cases r with
  | write n v => simp [Request.isWrite] at h
  | read n => rfl
  | list i => rfl
  | command c => rfl

theorem applyHist_no_writes {tr : List Request}
    (h : ∀ r ∈ tr, Request.isWrite r = false) : ∀ st, applyHist st tr = st := by
  induction tr with
  | nil => intro st; rfl
  | cons r tr ih =>
    intro st
    have hr : applyReq st r = st := applyReq_no_write (h r (List.mem_cons_self _ _))
    have htl : ∀ r' ∈ tr, Request.isWrite r' = false := fun r' hr' =>
      h r' (List.mem_cons_of_mem _ hr')
    calc applyHist st (r :: tr) = applyHist (applyReq st r) tr := rfl
      _ = applyHist st tr := by rw [hr]
      _ = st := ih htl st

theorem applyHist_writes (regs : List (String × RegValue)) :
    ∀ st, applyHist st (regs.map wrReq) =
      regs.foldl (fun s kv => dinsert s kv.1 kv.2) st := by
  induction regs with
  | nil => intro st; rfl
  | cons kv regs ih =>
    intro st
    calc applyHist st (wrReq kv :: regs.map wrReq)
        = applyHist (dinsert st kv.1 kv.2) (regs.map wrReq) := rfl
      _ = regs.foldl (fun s kv => dinsert s kv.1 kv.2) (dinsert st kv.1 kv.2) := ih _

theorem dlookup_foldl_dinsert_last (d : List (String × RegValue)) (st : Store)
    (k : String) (v : RegValue) :
    dlookup ((d ++ [(k, v)]).foldl (fun s kv => dinsert s kv.1 kv.2) st) k = some v := by
  rw [List.foldl_append]
  exact dlookup_dinsert_self _ k v

/-! ## The final register dict: cookie last -/

theorem regName_ne_cookie (kind n : String) : regName kind n ≠ cookieRegName := by
  intro h
  have hd := congrArg String.data h
  have h7 : "uavcan.".data ++ (kind.data ++ (".".data ++ (n.data ++ ".id".data))) =
      cookieRegName.data := by
    simpa [regName, String.data_append] using hd
  have ht := congrArg (List.take 7) h7
  rw [List.take_left' (by decide : ("uavcan.".data).length = 7)] at ht
  exact absurd ht (by decide)

theorem keys_foldl_regs (l : List (String × RegValue)) :
    ∀ d0, ∀ k ∈ dkeys (l.foldl (fun d kv => dinsert d kv.1 kv.2) d0),
      k ∈ dkeys d0 ∨ k ∈ l.map Prod.fst := by
  induction l with
  | nil =>
    intro d0 k hk
    exact Or.inl hk
  | cons kv l ih =>
    intro d0 k hk
    rcases ih (dinsert d0 kv.1 kv.2) k hk with hk' | hk'
    · rw [dkeys_dinsert] at hk'
      by_cases hmem : kv.1 ∈ dkeys d0
      · rw [if_pos hmem] at hk'
        exact Or.inl hk'
      · rw [if_neg hmem] at hk'
        rcases List.mem_append.mp hk' with hk'' | hk''
        · exact Or.inl hk''
        · simp at hk''
          exact Or.inr (by simp [hk''])
    · exact Or.inr (List.mem_cons_of_mem _ hk')

theorem ports_to_registers_keys (kind : String) (ports : List (String × Nat)) :
    ∀ k ∈ (ports_to_registers kind ports).map Prod.fst, ∃ n, k = regName kind n := by
  intro k hk
  simp only [ports_to_registers, List.map_map, List.mem_map, Function.comp] at hk
  obtain ⟨p, hp, hk⟩ := hk
  exact ⟨p.1, hk.symm⟩

theorem bfr_decomp (expected : String) (np : PortAssignment) :
    ∃ d, buildFinalRegisters expected np = d ++ [(cookieRegName, .str expected)] ∧
      ∀ kv ∈ d, kv.1 ≠ cookieRegName := by
  unfold buildFinalRegisters
  set d1 := (ports_to_registers "pub" np.pub).foldl
    (fun (d : List (String × RegValue)) kv => dinsert d kv.1 kv.2) [] with hd1
  set d2 := (ports_to_registers "sub" np.sub).foldl
    (fun (d : List (String × RegValue)) kv => dinsert d kv.1 kv.2) d1 with hd2
  set d3 := (ports_to_registers "cln" np.cln).foldl
    (fun (d : List (String × RegValue)) kv => dinsert d kv.1 kv.2) d2 with hd3
  set d4 := (ports_to_registers "srv" np.srv).foldl
    (fun (d : List (String × RegValue)) kv => dinsert d kv.1 kv.2) d3 with hd4
  have hkeys : ∀ k ∈ dkeys d4, k ≠ cookieRegName := by
    intro k hk
    have h4 := keys_foldl_regs _ _ k (hd4 ▸ hk)
    rcases h4 with h4 | h4
    · have h3 := keys_foldl_regs _ _ k (hd3 ▸ h4)
      rcases h3 with h3 | h3
      · have h2 := keys_foldl_regs _ _ k (hd2 ▸ h3)
        rcases h2 with h2 | h2
        · have h1 := keys_foldl_regs _ _ k (hd1 ▸ h2)
          rcases h1 with h1 | h1
          · simp [dkeys] at h1
          · obtain ⟨n, rfl⟩ := ports_to_registers_keys _ _ k h1
            exact regName_ne_cookie _ _
        · obtain ⟨n, rfl⟩ := ports_to_registers_keys _ _ k h2
          exact regName_ne_cookie _ _
      · obtain ⟨n, rfl⟩ := ports_to_registers_keys _ _ k h3
        exact regName_ne_cookie _ _
    · obtain ⟨n, rfl⟩ := ports_to_registers_keys _ _ k h4
      exact regName_ne_cookie _ _
  have hnot : cookieRegName ∉ dkeys d4 := fun hmem => hkeys _ hmem rfl
  refine ⟨d4, dinsert_of_not_mem _ hnot, ?_⟩
  intro kv hkv h
  exact hkeys kv.1 (List.mem_map_of_mem Prod.fst hkv) h

/-! ## Read-only trace helpers -/

theorem readonly_append {a b : List Request} (ha : ReadOnlyTrace a) (hb : ReadOnlyTrace b) :
    ReadOnlyTrace (a ++ b) := by
  intro r hr
  rcases List.mem_append.mp hr with hr | hr
  · exact ha r hr
  · exact hb r hr

theorem readonly_cookie_read : ReadOnlyTrace [Request.read cookieRegName] := by
  intro r hr
  simp at hr
  subst hr
  exact ⟨rfl, rfl⟩

theorem readonly_of_lists {t : List Request} (h : ∀ r ∈ t, ∃ j, r = Request.list j) :
    ReadOnlyTrace t := by
  intro r hr
  obtain ⟨j, rfl⟩ := h r hr
  exact ⟨rfl, rfl⟩

theorem readonly_of_reads {t : List Request} (h : ∀ r ∈ t, ∃ n, r = Request.read n) :
    ReadOnlyTrace t := by
  intro r hr
  obtain ⟨n, rfl⟩ := h r hr
  exact ⟨rfl, rfl⟩

/-! ## Run decomposition -/

theorem runFromWrite_cases (remote : Remote) (expected : String)
    (alloc : PortAssignment → PortAssignment) (original : PortAssignment) (tr : List Request) :
    (∃ ms tw, writeRegsPhase remote (buildFinalRegisters expected (alloc original)) tr [] =
        (tw, .ok ms) ∧
      runFromWrite remote expected alloc original tr =
        (tw ++ [Request.command cmdStore, Request.command cmdRestart], .ok (.configured ms))) ∨
    (∃ tw, writeRegsPhase remote (buildFinalRegisters expected (alloc original)) tr [] =
        (tw, .error (.timeout .writeRegs)) ∧
      runFromWrite remote expected alloc original tr = (tw, .error (.timeout .writeRegs))) := by
  rcases hw : writeRegsPhase remote (buildFinalRegisters expected (alloc original)) tr []
    with ⟨tw, res⟩
  cases res with
  | error e =>
    have he : e = .timeout .writeRegs := writeRegsPhase_err remote _ _ _ _ (by rw [hw])
    subst he
    right
    refine ⟨tw, rfl, ?_⟩
    unfold runFromWrite
    rw [hw]
  | ok ms =>
    left
    refine ⟨ms, tw, rfl, ?_⟩
    unfold runFromWrite
    rw [hw]
    rfl

/-- The complete case analysis on one orchestration run: either it never
reaches the write phase — then the whole trace is read-only (no register
writes, no commands) and the result is not `configured` and not a
write-phase timeout — or it reaches the write phase after a read-only
prefix, and either completes every write of the final register dict
followed by exactly the two commands, or stops at a write timeout after a
prefix of those writes. -/
theorem runAlloc_trace_cases (remote : Remote) (expected : String)
    (alloc : PortAssignment → PortAssignment) (fuel : Nat) :
    (ReadOnlyTrace (runAlloc remote expected alloc fuel).1 ∧
      ((∃ e, (runAlloc remote expected alloc fuel).2 = .error e ∧ e ≠ .timeout .writeRegs) ∨
       (∃ o, (runAlloc remote expected alloc fuel).2 = .ok o ∧ ∀ ms, o ≠ .configured ms))) ∨
    (∃ tr₀ np, ReadOnlyTrace tr₀ ∧
      ((∃ regs' rest, buildFinalRegisters expected np = regs' ++ rest ∧
          (runAlloc remote expected alloc fuel).1 = tr₀ ++ regs'.map wrReq ∧
          (runAlloc remote expected alloc fuel).2 = .error (.timeout .writeRegs) ∧
          writeRegsPhase remote (buildFinalRegisters expected np) tr₀ [] =
            ((runAlloc remote expected alloc fuel).1, .error (.timeout .writeRegs))) ∨
       (∃ ms, (runAlloc remote expected alloc fuel).1 =
            tr₀ ++ (buildFinalRegisters expected np).map wrReq ++
              [Request.command cmdStore, Request.command cmdRestart] ∧
          (runAlloc remote expected alloc fuel).2 = .ok (.configured ms)))) := by
  rcases cookiePhase_cases remote expected with hcp | ⟨d, hcp⟩
  · have hra : runAlloc remote expected alloc fuel =
        ([Request.read cookieRegName], .error (.timeout .checkCookie)) := by
      rw [runAlloc_unfold, hcp]
    left
    rw [hra]
    exact ⟨readonly_cookie_read, Or.inl ⟨_, rfl, by simp⟩⟩
  · cases d with
    | notCapable =>
      have hra : runAlloc remote expected alloc fuel =
          ([Request.read cookieRegName], .ok .notCapable) := by
        rw [runAlloc_unfold, hcp]
      left
      rw [hra]
      exact ⟨readonly_cookie_read, Or.inr ⟨_, rfl, by simp⟩⟩
    | alreadyConfigured =>
      have hra : runAlloc remote expected alloc fuel =
          ([Request.read cookieRegName], .ok .alreadyConfigured) := by
        rw [runAlloc_unfold, hcp]
      left
      rw [hra]
      exact ⟨readonly_cookie_read, Or.inr ⟨_, rfl, by simp⟩⟩
    | rejected =>
      have hra : runAlloc remote expected alloc fuel =
          ([Request.read cookieRegName], .ok .rejected) := by
        rw [runAlloc_unfold, hcp]
      left
      rw [hra]
      exact ⟨readonly_cookie_read, Or.inr ⟨_, rfl, by simp⟩⟩
    | needsConfig =>
      have hra : runAlloc remote expected alloc fuel =
          runFromEnum remote expected alloc fuel [Request.read cookieRegName] :=
        runAlloc_of_needsConfig alloc fuel hcp
      obtain ⟨t1, ht1, hl1⟩ :=
        enumeratePhase_trace remote fuel [Request.read cookieRegName] 0 []
      rcases he : enumeratePhase remote fuel [Request.read cookieRegName] 0 []
        with ⟨tr1, rese⟩
      rw [he] at ht1
      simp only at ht1
      have hro1 : ReadOnlyTrace tr1 := by
        rw [ht1]
        exact readonly_append readonly_cookie_read (readonly_of_lists hl1)
      cases rese with
      | error e =>
        have hrfe : runFromEnum remote expected alloc fuel [Request.read cookieRegName] =
            (tr1, .error e) := by
          unfold runFromEnum
          rw [he]
        left
        rw [hra, hrfe]
        refine ⟨hro1, Or.inl ⟨e, rfl, ?_⟩⟩
        rcases enumeratePhase_err remote fuel _ 0 [] e (by rw [he]) with rfl | rfl <;> simp
      | ok available =>
        have hrfe : runFromEnum remote expected alloc fuel [Request.read cookieRegName] =
            runFromRead remote expected alloc available tr1 := by
          unfold runFromEnum
          rw [he]
        obtain ⟨t2, ht2, hr2⟩ := readAllPorts_trace remote available tr1
        rcases hrp : readAllPorts remote available tr1 with ⟨tr2, resr⟩
        rw [hrp] at ht2
        simp only at ht2
        have hro2 : ReadOnlyTrace tr2 := by
          rw [ht2]
          exact readonly_append hro1 (readonly_of_reads hr2)
        cases resr with
        | error e =>
          have hrfr : runFromRead remote expected alloc available tr1 = (tr2, .error e) := by
            unfold runFromRead
            rw [hrp]
          left
          rw [hra, hrfe, hrfr]
          refine ⟨hro2, Or.inl ⟨e, rfl, ?_⟩⟩
          rcases readAllPorts_err remote available tr1 e (by rw [hrp]) with rfl | ⟨n, rfl⟩ <;> simp
        | ok original =>
          have hrfr : runFromRead remote expected alloc available tr1 =
              runFromWrite remote expected alloc original tr2 := by
            unfold runFromRead
            rw [hrp]
          rcases runFromWrite_cases remote expected alloc original tr2 with
            ⟨ms, tw, hw, hres⟩ | ⟨tw, hw, hres⟩
          · obtain ⟨regs', rest, hbfr, htw, hok⟩ :=
              writeRegsPhase_trace remote (buildFinalRegisters expected (alloc original)) tr2 []
            have hrest : rest = [] := hok ms (by rw [hw])
            subst hrest
            rw [List.append_nil] at hbfr
            rw [hw] at htw
            simp only at htw
            right
            refine ⟨tr2, alloc original, hro2, Or.inr ⟨ms, ?_, ?_⟩⟩
            · rw [hra, hrfe, hrfr, hres, htw, hbfr]
            · rw [hra, hrfe, hrfr, hres]
          · obtain ⟨regs', rest, hbfr, htw, hok⟩ :=
              writeRegsPhase_trace remote (buildFinalRegisters expected (alloc original)) tr2 []
            rw [hw] at htw
            simp only at htw
            right
            refine ⟨tr2, alloc original, hro2, Or.inl ⟨regs', rest, hbfr, ?_, ?_, ?_⟩⟩
            · rw [hra, hrfe, hrfr, hres, htw]
            · rw [hra, hrfe, hrfr, hres]
            · rw [hra, hrfe, hrfr, hres, hw]

/-! ## Claim theorems -/

/-- C1.  The extraction step does NOT recover the bare middle segment: the
slice `r[len(s) - 1 : -len(e)]` in `extract_ports` (node_proxy.py:99)
starts one character early, so `"uavcan.pub.foo.id"` yields `".foo"`
instead of `"foo"`, `read_port_id` then queries the different register
name `"uavcan.pub..foo.id"`, and a run against a node exposing that
register aborts on the unreadable doubled-dot register. -/
theorem c1_extract_ports_bug :
    extract_ports ["uavcan.pub.foo.id"] "pub" = [".foo"] ∧
    (".foo" : String) ≠ "foo" ∧
    regName "pub" ".foo" = "uavcan.pub..foo.id" ∧
    ("uavcan.pub..foo.id" : String) ≠ "uavcan.pub.foo.id" ∧
    (runAlloc (storeRemote [(cookieRegName, .str "x"), ("uavcan.pub.foo.id", .nat16 [9])])
        "exp" onePortAlloc 9).2 = .error (.badValue "uavcan.pub..foo.id") := by
  decide

/-- C8.  `detect_service_instances` on the claim's concrete input yields
service keys `["airspeed", "servo"]`, instance keys `["foo", "bar"]`
under `"airspeed"`, and publisher suffix keys
`["differential_pressure", "static_air_temperature"]` under `"foo"`. -/
theorem c8_detect_ordering :
    dkeys (detect_service_instances
        ["airspeed.foo.differential_pressure", "airspeed.foo.static_air_temperature",
         "airspeed.bar.differential_pressure", "servo.feedback"]
        ["airspeed.bar.heater.state"] [] []) = ["airspeed", "servo"] ∧
    innerKeysOf (detect_service_instances
        ["airspeed.foo.differential_pressure", "airspeed.foo.static_air_temperature",
         "airspeed.bar.differential_pressure", "servo.feedback"]
        ["airspeed.bar.heater.state"] [] []) "airspeed" = ["foo", "bar"] ∧
    dkeys (psmAt (detect_service_instances
        ["airspeed.foo.differential_pressure", "airspeed.foo.static_air_temperature",
         "airspeed.bar.differential_pressure", "servo.feedback"]
        ["airspeed.bar.heater.state"] [] []) "airspeed" "foo").pub =
      ["differential_pressure", "static_air_temperature"] := by
  decide

/-- C2, counterexample.  With the non-normalized expected cookie `"ABC"`,
a run from cookie `"x"` completes and leaves cookie `"ABC"`, yet the
second run is NOT the claimed cookie-check no-op: the lowercased remote
value `"abc"` differs from `"ABC"`, so the node is reconfigured again
with one register write. -/
theorem c2_not_idempotent_unnormalized :
    (runAlloc (storeRemote [(cookieRegName, RegValue.str "x")]) "ABC" trivAlloc 5).2 =
      .ok (.configured []) ∧
    dlookup (applyHist [(cookieRegName, RegValue.str "x")]
        (runAlloc (storeRemote [(cookieRegName, RegValue.str "x")]) "ABC" trivAlloc 5).1)
      cookieRegName = some (.str "ABC") ∧
    (runAlloc (storeRemote (applyHist [(cookieRegName, RegValue.str "x")]
        (runAlloc (storeRemote [(cookieRegName, RegValue.str "x")]) "ABC" trivAlloc 5).1))
      "ABC" trivAlloc 5).2 ≠ .ok .alreadyConfigured ∧
    ((runAlloc (storeRemote (applyHist [(cookieRegName, RegValue.str "x")]
        (runAlloc (storeRemote [(cookieRegName, RegValue.str "x")]) "ABC" trivAlloc 5).1))
      "ABC" trivAlloc 5).1.filter Request.isWrite).length = 1 := by
  decide

/-- C3, counterexample.  Scanning the publishers `["a.x", "p.u", "q.v"]`
first encounters service `"S1"` (via `"a.x"`), yet the result's key order
is `["S2", "S1"]` — the registry's order — and likewise `"S2"`'s instance
keys come in the registry order `["q", "p"]`, not first-encounter order
`["p", "q"]`. -/
theorem c3_registry_order_counterexample :
    dkeys (discover_service_instances [("S2", ["q", "p"]), ("S1", ["a"])]
        ["a.x", "p.u", "q.v"] [] [] []) = ["S2", "S1"] ∧
    (["S2", "S1"] : List String) ≠ ["S1", "S2"] ∧
    innerKeysOf (discover_service_instances [("S2", ["q", "p"]), ("S1", ["a"])]
        ["a.x", "p.u", "q.v"] [] [] []) "S2" = ["q", "p"] ∧
    (["q", "p"] : List String) ≠ ["p", "q"] := by
  decide

/-- C4, counterexample.  A write round trip that times out is fatal, not
non-fatal: the run aborts with the timeout error after the first
port-register write, the cookie is never written, and no persist/restart
command is issued. -/
theorem c4_write_timeout_fatal :
    (runAlloc timeoutOnWriteRemote "exp" onePortAlloc 5).2 = .error (.timeout .writeRegs) ∧
    ((runAlloc timeoutOnWriteRemote "exp" onePortAlloc 5).1.any
      (fun r => r = Request.write "uavcan.pub.p.id" (.nat16 [7]))) = true ∧
    ((runAlloc timeoutOnWriteRemote "exp" onePortAlloc 5).1.any
      (fun r => r = Request.write cookieRegName (.str "exp"))) = false ∧
    (runAlloc timeoutOnWriteRemote "exp" onePortAlloc 5).1.filter Request.isCmd = [] := by
  decide

/-- C5, counterexample.  The source strips dots from BOTH ends of a
registered instance prefix (`ins.strip(".")`), so with registered prefix
`".a"` the port `"a.x"` does appear in the result, although its first
component `"a"` differs from the trailing-stripped prefix `".a"` the
claim's criterion demands. -/
theorem c5_leading_dot_counterexample :
    portAppears (discover_service_instances [("S", [".a"])] ["a.x"] [] [] []) "a.x" = true ∧
    splitDots "a.x" = ["a", "x"] ∧
    specTrailingStrip ".a" = ".a" ∧
    (".a" : String) ≠ "a" := by
  decide

/-- C9, counterexample.  When the locally expected cookie is itself
`"reject"`, a remote cookie reading `"reject"` terminates the run as
ALREADY_CONFIGURED (the equality branch precedes the sentinel branch),
not as the claimed REJECTED. -/
theorem c9_expected_reject_corner :
    (runAlloc (storeRemote [(cookieRegName, RegValue.str "reject")]) "reject" trivAlloc 5).2 =
      .ok .alreadyConfigured ∧
    Outcome.alreadyConfigured ≠ Outcome.rejected := by
  decide

/-- C10, counterexample.  For the remote cookie `" REJECT "` the claimed
REJECTED outcome is not reached when the expected cookie is `"reject"`:
the normalized remote value then equals the expected value and the run
terminates ALREADY_CONFIGURED. -/
theorem c10_normalized_match_corner :
    (runAlloc (storeRemote [(cookieRegName, RegValue.str " REJECT ")]) "reject" trivAlloc 5).2 =
      .ok .alreadyConfigured ∧
    Outcome.alreadyConfigured ≠ Outcome.rejected := by
  decide

/-- C7.  A register round-trip timeout during the cookie check, register
enumeration, or current-port reading aborts the run with the surfaced
timeout error, and at that point the trace contains no register write and
no command, so replaying it against any register store leaves the store
unchanged. -/
theorem c7_read_timeout_no_writes (remote : Remote) (expected : String)
    (alloc : PortAssignment → PortAssignment) (fuel : Nat) (ph : Phase)
    (h : (runAlloc remote expected alloc fuel).2 = .error (.timeout ph))
    (hph : ph ≠ .writeRegs) :
    (runAlloc remote expected alloc fuel).1.filter Request.isWrite = [] ∧
    (runAlloc remote expected alloc fuel).1.filter Request.isCmd = [] ∧
    ∀ st : Store, applyHist st (runAlloc remote expected alloc fuel).1 = st := by
  rcases runAlloc_trace_cases remote expected alloc fuel with ⟨hro, _⟩ | ⟨tr₀, np, hro, hcase⟩
  · refine ⟨?_, ?_, ?_⟩
    · rw [List.filter_eq_nil_iff]
      intro r hr
      simp [(hro r hr).1]
    · rw [List.filter_eq_nil_iff]
      intro r hr
      simp [(hro r hr).2]
    · exact fun st => applyHist_no_writes (fun r hr => (hro r hr).1) st
  · rcases hcase with ⟨regs', rest, _, _, hres, _⟩ | ⟨ms, _, hres⟩
    · rw [h] at hres
      have : (RunError.timeout ph) = .timeout .writeRegs := by injection hres
      have : ph = .writeRegs := by injection this
      exact absurd this hph
    · rw [h] at hres
      exact Except.noConfusion hres

/-- C7 witness: a remote that never answers times out at the cookie read,
the error is surfaced, and no write or command was issued. -/
theorem c7_read_timeout_no_writes_witness :
    (runAlloc deadRemote "exp" trivAlloc 3).2 = .error (.timeout .checkCookie) ∧
    Phase.checkCookie ≠ Phase.writeRegs ∧
    ((runAlloc deadRemote "exp" trivAlloc 3).1.filter Request.isWrite = [] ∧
     (runAlloc deadRemote "exp" trivAlloc 3).1.filter Request.isCmd = [] ∧
     ∀ st : Store, applyHist st (runAlloc deadRemote "exp" trivAlloc 3).1 = st) :=
  ⟨by decide, by decide,
    c7_read_timeout_no_writes deadRemote "exp" trivAlloc 3 .checkCookie (by decide) (by decide)⟩

/-- C9, amended.  If the cookie register reads as the string `"reject"`
and the locally expected cookie is not itself `"reject"`, the run
terminates REJECTED right after the single cookie read: no register list
call, register write, or command is issued, whatever the policy. -/
theorem c9_reject_frame (remote : Remote) (expected : String)
    (alloc : PortAssignment → PortAssignment) (fuel : Nat)
    (hacc : remote.access [] cookieRegName none = some (.str "reject"))
    (hne : expected ≠ "reject") :
    runAlloc remote expected alloc fuel = ([Request.read cookieRegName], .ok .rejected) := by
  have hcp := cookiePhase_str remote expected "reject" hacc
  have hnorm : pyLower (pyStrip "reject") = "reject" := by decide
  rw [hnorm, if_neg (fun h => hne h.symm), if_pos rfl] at hcp
  exact runAlloc_of_rejected alloc fuel hcp

/-- C9 witness at a concrete simulated node. -/
theorem c9_reject_frame_witness :
    (storeRemote [(cookieRegName, RegValue.str "reject")]).access [] cookieRegName none =
      some (.str "reject") ∧
    ("exp" : String) ≠ "reject" ∧
    runAlloc (storeRemote [(cookieRegName, RegValue.str "reject")]) "exp" trivAlloc 3 =
      ([Request.read cookieRegName], .ok .rejected) :=
  ⟨by decide, by decide,
    c9_reject_frame (storeRemote [(cookieRegName, RegValue.str "reject")]) "exp" trivAlloc 3
      (by decide) (by decide)⟩

/-- C10, amended.  The remote cookie value is whitespace-stripped and
lowercased before any comparison, while the expected value enters the
comparison unmodified: if the normalized remote value equals the raw
expected value the run is ALREADY_CONFIGURED, and otherwise, if it equals
`"reject"` (as for a remote value `" REJECT "` when the expected cookie
differs from `"reject"`), the run is REJECTED after the single cookie
read. -/
theorem c10_cookie_normalization (remote : Remote) (expected c : String)
    (alloc : PortAssignment → PortAssignment) (fuel : Nat)
    (hacc : remote.access [] cookieRegName none = some (.str c)) :
    (pyLower (pyStrip c) = expected →
      runAlloc remote expected alloc fuel =
        ([Request.read cookieRegName], .ok .alreadyConfigured)) ∧
    (pyLower (pyStrip c) ≠ expected → pyLower (pyStrip c) = "reject" →
      runAlloc remote expected alloc fuel = ([Request.read cookieRegName], .ok .rejected)) := by
  have hcp := cookiePhase_str remote expected c hacc
  constructor
  · intro h1
    rw [if_pos h1] at hcp
    exact runAlloc_of_already alloc fuel hcp
  · intro h1 h2
    rw [if_neg h1, if_pos h2] at hcp
    exact runAlloc_of_rejected alloc fuel hcp

/-- C10 witness: the remote cookie `" REJECT "` normalizes to `"reject"`
and the run is REJECTED. -/
theorem c10_cookie_normalization_witness :
    (storeRemote [(cookieRegName, RegValue.str " REJECT ")]).access [] cookieRegName none =
      some (.str " REJECT ") ∧
    pyLower (pyStrip " REJECT ") ≠ "exp" ∧
    pyLower (pyStrip " REJECT ") = "reject" ∧
    runAlloc (storeRemote [(cookieRegName, RegValue.str " REJECT ")]) "exp" trivAlloc 3 =
      ([Request.read cookieRegName], .ok .rejected) :=
  ⟨by decide, by decide, by decide,
    (c10_cookie_normalization (storeRemote [(cookieRegName, RegValue.str " REJECT ")])
      "exp" " REJECT " trivAlloc 3 (by decide)).2 (by decide) (by decide)⟩

/-- C2, amended.  Provided the expected cookie is invariant under the
normalization applied to remote values (lowercase, no surrounding
whitespace), any run against a simulated register store that completes
the write phase leaves the cookie register equal to the expected cookie,
and a second run against the resulting store terminates at the cookie
check as ALREADY_CONFIGURED after the single cookie read — zero register
writes. -/
theorem c2_idempotent_normalized (init : Store) (expected : String)
    (alloc : PortAssignment → PortAssignment) (fuel1 fuel2 : Nat) (ms : List String)
    (hn : pyLower (pyStrip expected) = expected)
    (h1 : (runAlloc (storeRemote init) expected alloc fuel1).2 = .ok (.configured ms)) :
    dlookup (applyHist init (runAlloc (storeRemote init) expected alloc fuel1).1)
      cookieRegName = some (.str expected) ∧
    runAlloc (storeRemote (applyHist init (runAlloc (storeRemote init) expected alloc fuel1).1))
        expected alloc fuel2 =
      ([Request.read cookieRegName], .ok .alreadyConfigured) := by
  rcases runAlloc_trace_cases (storeRemote init) expected alloc fuel1 with
    ⟨hro, hres⟩ | ⟨tr₀, np, hro, hcase⟩
  · rcases hres with ⟨e, hres, _⟩ | ⟨o, hres, ho⟩
    · rw [h1] at hres
      exact Except.noConfusion hres
    · rw [h1] at hres
      have : Outcome.configured ms = o := by injection hres
      exact absurd this.symm (ho ms)
  · rcases hcase with ⟨_, _, _, _, hres, _⟩ | ⟨ms', htr, _⟩
    · rw [h1] at hres
      exact Except.noConfusion hres
    · obtain ⟨d, hbfr, hdkeys⟩ := bfr_decomp expected np
      have hcook : dlookup (applyHist init (runAlloc (storeRemote init) expected alloc fuel1).1)
          cookieRegName = some (.str expected) := by
        rw [htr, applyHist_append, applyHist_append]
        have hcmds : applyHist (applyHist (applyHist init tr₀)
            ((buildFinalRegisters expected np).map wrReq))
            [Request.command cmdStore, Request.command cmdRestart] =
            applyHist (applyHist init tr₀) ((buildFinalRegisters expected np).map wrReq) := by
          apply applyHist_no_writes
          intro r hr
          rcases List.mem_cons.mp hr with rfl | hr
          · rfl
          · rcases List.mem_cons.mp hr with rfl | hr
            · rfl
            · cases hr
        rw [hcmds, applyHist_writes, hbfr]
        exact dlookup_foldl_dinsert_last d _ cookieRegName (.str expected)
      refine ⟨hcook, ?_⟩
      have hacc : (storeRemote (applyHist init
          (runAlloc (storeRemote init) expected alloc fuel1).1)).access []
          cookieRegName none = some (.str expected) := by
        show some ((dlookup (applyHist (applyHist init
          (runAlloc (storeRemote init) expected alloc fuel1).1) []) cookieRegName).getD .empty) =
          some (.str expected)
        rw [show ∀ st : Store, applyHist st [] = st from fun _ => rfl, hcook]
        rfl
      have hcp := cookiePhase_str _ expected expected hacc
      rw [if_pos hn] at hcp
      exact runAlloc_of_already alloc fuel2 hcp

/-- C2 witness at a concrete store and normalized cookie `"abc"`. -/
theorem c2_idempotent_normalized_witness :
    pyLower (pyStrip "abc") = "abc" ∧
    (runAlloc (storeRemote [(cookieRegName, RegValue.str "x")]) "abc" trivAlloc 5).2 =
      .ok (.configured []) ∧
    (dlookup (applyHist [(cookieRegName, RegValue.str "x")]
        (runAlloc (storeRemote [(cookieRegName, RegValue.str "x")]) "abc" trivAlloc 5).1)
      cookieRegName = some (.str "abc") ∧
    runAlloc (storeRemote (applyHist [(cookieRegName, RegValue.str "x")]
        (runAlloc (storeRemote [(cookieRegName, RegValue.str "x")]) "abc" trivAlloc 5).1))
        "abc" trivAlloc 7 =
      ([Request.read cookieRegName], .ok .alreadyConfigured)) :=
  ⟨by decide, by decide,
    c2_idempotent_normalized [(cookieRegName, RegValue.str "x")] "abc" trivAlloc 5 7 []
      (by decide) (by decide)⟩

/-- C4, amended.  When the remote answers every register write (whatever
value it echoes back), the write phase is never aborted: every register
in the dict is written, the phase completes with the per-key mismatch
report, and the run can never fail with a write-phase timeout; whenever a
run completes, the persist/restart commands are the trace's final
requests.  (A write round trip that times out, by contrast, is fatal —
see the accompanying counterexample.) -/
theorem c4_mismatch_nonfatal (remote : Remote)
    (hresp : ∀ hist n v, remote.access hist n (some v) ≠ none) :
    (∀ regs tr ms, ∃ ms',
      writeRegsPhase remote regs tr ms = (tr ++ regs.map wrReq, .ok ms')) ∧
    (∀ expected alloc fuel,
      (runAlloc remote expected alloc fuel).2 ≠ .error (.timeout .writeRegs)) ∧
    (∀ expected alloc fuel ms,
      (runAlloc remote expected alloc fuel).2 = .ok (.configured ms) →
      ∃ tr₀, (runAlloc remote expected alloc fuel).1 =
        tr₀ ++ [Request.command cmdStore, Request.command cmdRestart]) := by
  refine ⟨writeRegsPhase_complete remote hresp, ?_, ?_⟩
  · intro expected alloc fuel h
    rcases runAlloc_trace_cases remote expected alloc fuel with
      ⟨_, hres⟩ | ⟨tr₀, np, _, hcase⟩
    · rcases hres with ⟨e, hres, hne⟩ | ⟨o, hres, _⟩
      · rw [h] at hres
        have : RunError.timeout .writeRegs = e := by injection hres
        exact hne (this ▸ rfl)
      · rw [h] at hres
        exact Except.noConfusion hres
    · rcases hcase with ⟨_, _, _, _, _, hw⟩ | ⟨ms, _, hres⟩
      · obtain ⟨ms', hc⟩ :=
          writeRegsPhase_complete remote hresp (buildFinalRegisters expected np) tr₀ []
        rw [hc] at hw
        have : (Except.ok ms' : Except RunError (List String)) =
            .error (.timeout .writeRegs) := by
          injection hw
        exact Except.noConfusion this
      · rw [h] at hres
        exact Except.noConfusion hres
  · intro expected alloc fuel ms h
    rcases runAlloc_trace_cases remote expected alloc fuel with
      ⟨_, hres⟩ | ⟨tr₀, np, _, hcase⟩
    · rcases hres with ⟨e, hres, _⟩ | ⟨o, hres, ho⟩
      · rw [h] at hres
        exact Except.noConfusion hres
      · rw [h] at hres
        have : Outcome.configured ms = o := by injection hres
        exact absurd this.symm (ho ms)
    · rcases hcase with ⟨_, _, _, _, hres, _⟩ | ⟨ms', htr, _⟩
      · rw [h] at hres
        exact Except.noConfusion hres
      · exact ⟨tr₀ ++ (buildFinalRegisters expected np).map wrReq, by rw [htr, List.append_assoc]⟩

/-- C4 witness: a remote echoing a wrong value for every write still
completes all writes, reports both mismatched keys, and issues both
commands. -/
theorem c4_mismatch_nonfatal_witness :
    (∀ hist n v, wrongEchoRemote.access hist n (some v) ≠ none) ∧
    (runAlloc wrongEchoRemote "exp" onePortAlloc 5).2 ≠ .error (.timeout .writeRegs) ∧
    (runAlloc wrongEchoRemote "exp" onePortAlloc 5).2 =
      .ok (.configured ["uavcan.pub.p.id", "udral.pnp.cookie"]) ∧
    (runAlloc wrongEchoRemote "exp" onePortAlloc 5).1.filter Request.isCmd =
      [Request.command cmdStore, Request.command cmdRestart] :=
  ⟨fun hist n v h => Option.noConfusion h,
    (c4_mismatch_nonfatal wrongEchoRemote
      (fun hist n v h => Option.noConfusion h)).2.1 "exp" onePortAlloc 5,
    by decide, by decide⟩

/-- If a trace consists of a block without cookie writes, one
distinguished element, and a write-free tail, then everything after any
cookie-write occurrence is write-free. -/
theorem split_after_unique {C B : List Request}
    (hC : ∀ r ∈ C, ∀ v, r ≠ Request.write cookieRegName v) (y₀ : Request)
    (hB : ∀ r ∈ B, Request.isWrite r = false) :
    ∀ l₁ y l₂, C ++ y₀ :: B = l₁ ++ y :: l₂ →
      (∃ v, y = Request.write cookieRegName v) →
      ∀ r ∈ l₂, Request.isWrite r = false := by
  induction C with
  | nil =>
    intro l₁ y l₂ h hy r hr
    cases l₁ with
    | nil =>
      rw [List.nil_append, List.nil_append] at h
      have h2 : B = l₂ := (List.cons.injEq _ _ _ _ ▸ h).2
      exact hB r (h2 ▸ hr)
    | cons a l₁' =>
      rw [List.nil_append, List.cons_append] at h
      have h2 : B = l₁' ++ y :: l₂ := (List.cons.injEq _ _ _ _ ▸ h).2
      obtain ⟨v, rfl⟩ := hy
      have hmem : Request.write cookieRegName v ∈ B := by
        rw [h2]
        exact List.mem_append_right _ (List.mem_cons_self _ _)
      have := hB _ hmem
      simp [Request.isWrite] at this
  | cons c C' ih =>
    intro l₁ y l₂ h hy r hr
    cases l₁ with
    | nil =>
      rw [List.cons_append, List.nil_append] at h
      have h1 : c = y := (List.cons.injEq _ _ _ _ ▸ h).1
      obtain ⟨v, rfl⟩ := hy
      exact absurd h1 (hC c (List.mem_cons_self _ _) v)
    | cons a l₁' =>
      rw [List.cons_append, List.cons_append] at h
      have h2 : C' ++ y₀ :: B = l₁' ++ y :: l₂ := (List.cons.injEq _ _ _ _ ▸ h).2
      exact ih (fun r' hr' => hC r' (List.mem_cons_of_mem _ hr')) l₁' y l₂ h2 hy r hr

theorem map_wrReq_no_cmd (l : List (String × RegValue)) :
    ∀ r ∈ l.map wrReq, Request.isCmd r = false := by
  intro r hr
  rcases List.mem_map.mp hr with ⟨kv, _, rfl⟩
  rfl

/-- A left part of a list ending in a single extra element either sits
inside the front block or is the whole list. -/
theorem left_part_cases {α : Type} (regs' rest d : List α) (x : α)
    (h : regs' ++ rest = d ++ [x]) :
    (∀ kv ∈ regs', kv ∈ d) ∨ (regs' = d ++ [x] ∧ rest = []) := by
  cases rest with
  | nil =>
    right
    exact ⟨by simpa using h, rfl⟩
  | cons r0 rest' =>
    left
    intro kv hkv
    have hlen : regs'.length ≤ d.length := by
      have := congrArg List.length h
      simp at this
      omega
    have htake : (d ++ [x]).take regs'.length = regs' := by
      rw [← h, List.take_left]
    have hsub : regs' = d.take regs'.length := by
      have hta : (d ++ [x]).take regs'.length = d.take regs'.length :=
        List.take_append_of_le_length hlen
      rw [htake] at hta
      exact hta
    rw [hsub] at hkv
    exact List.take_subset _ _ hkv

/-- C6.  In every run, (a) once the cookie register has been written no
further register write is ever issued, and (b) if any command is issued
at all, the trace ends with exactly the cookie write (to the expected
value) followed by the persist and restart commands — so the cookie write
is the last register write before the commands. -/
theorem c6_cookie_write_last (remote : Remote) (expected : String)
    (alloc : PortAssignment → PortAssignment) (fuel : Nat) :
    (∀ l₁ v l₂, (runAlloc remote expected alloc fuel).1 =
        l₁ ++ Request.write cookieRegName v :: l₂ →
      ∀ r ∈ l₂, Request.isWrite r = false) ∧
    ((∃ r ∈ (runAlloc remote expected alloc fuel).1, Request.isCmd r = true) →
      ∃ tr₀, (runAlloc remote expected alloc fuel).1 =
        tr₀ ++ [Request.write cookieRegName (.str expected),
                Request.command cmdStore, Request.command cmdRestart]) := by
  rcases runAlloc_trace_cases remote expected alloc fuel with ⟨hro, _⟩ | ⟨tr₀, np, hro, hcase⟩
  · constructor
    · intro l₁ v l₂ h r hr
      have hmem : Request.write cookieRegName v ∈ (runAlloc remote expected alloc fuel).1 := by
        rw [h]
        exact List.mem_append_right _ (List.mem_cons_self _ _)
      have := (hro _ hmem).1
      simp [Request.isWrite] at this
    · rintro ⟨r, hrmem, hcmd⟩
      have := (hro r hrmem).2
      rw [this] at hcmd
      exact Bool.noConfusion hcmd
  · obtain ⟨d, hbfr, hdkeys⟩ := bfr_decomp expected np
    have hC : ∀ r ∈ tr₀ ++ d.map wrReq, ∀ v, r ≠ Request.write cookieRegName v := by
      intro r hr v hre
      rcases List.mem_append.mp hr with hr | hr
      · have := (hro r hr).1
        rw [hre] at this
        simp [Request.isWrite] at this
      · rcases List.mem_map.mp hr with ⟨kv, hkv, rfl⟩
        have hk : kv.1 = cookieRegName := by
          have h' := hre
          simp only [wrReq, Request.write.injEq] at h'
          exact h'.1
        exact hdkeys kv hkv hk
    have hnocookie : ∀ regsp : List (String × RegValue),
        (∀ kv ∈ regsp, kv ∈ d) →
        (runAlloc remote expected alloc fuel).1 = tr₀ ++ regsp.map wrReq →
        (∀ l₁ v l₂, (runAlloc remote expected alloc fuel).1 =
            l₁ ++ Request.write cookieRegName v :: l₂ →
          ∀ r ∈ l₂, Request.isWrite r = false) ∧
        ((∃ r ∈ (runAlloc remote expected alloc fuel).1, Request.isCmd r = true) →
          ∃ tr₁, (runAlloc remote expected alloc fuel).1 =
            tr₁ ++ [Request.write cookieRegName (.str expected),
                    Request.command cmdStore, Request.command cmdRestart]) := by
      intro regsp hsub htr
      have hnc : ∀ r ∈ (runAlloc remote expected alloc fuel).1, ∀ v,
          r ≠ Request.write cookieRegName v := by
        intro r hr v hre
        rw [htr] at hr
        rcases List.mem_append.mp hr with hr | hr
        · have := (hro r hr).1
          rw [hre] at this
          simp [Request.isWrite] at this
        · rcases List.mem_map.mp hr with ⟨kv, hkv, rfl⟩
          have hk : kv.1 = cookieRegName := by
            have h' := hre
            simp only [wrReq, Request.write.injEq] at h'
            exact h'.1
          exact hdkeys kv (hsub kv hkv) hk
      constructor
      · intro l₁ v l₂ h r hr
        have hmem : Request.write cookieRegName v ∈ (runAlloc remote expected alloc fuel).1 := by
          rw [h]
          exact List.mem_append_right _ (List.mem_cons_self _ _)
        exact absurd rfl (hnc _ hmem v)
      · rintro ⟨r, hrmem, hcmd⟩
        rw [htr] at hrmem
        rcases List.mem_append.mp hrmem with hr | hr
        · have := (hro r hr).2
          rw [this] at hcmd
          exact Bool.noConfusion hcmd
        · have := map_wrReq_no_cmd regsp r hr
          rw [this] at hcmd
          exact Bool.noConfusion hcmd
    rcases hcase with ⟨regs', rest, hsplit, htr, _, _⟩ | ⟨ms, htr, _⟩
    · have hsplit' : regs' ++ rest = d ++ [(cookieRegName, RegValue.str expected)] := by
        rw [← hsplit, hbfr]
      rcases left_part_cases regs' rest d _ hsplit' with hsub | ⟨hregs, _⟩
      · exact hnocookie regs' hsub htr
      · have htr' : (runAlloc remote expected alloc fuel).1 =
            (tr₀ ++ d.map wrReq) ++
              Request.write cookieRegName (.str expected) :: [] := by
          rw [htr, hregs]
          simp [wrReq]
        constructor
        · intro l₁ v l₂ h r hr
          rw [htr'] at h
          exact split_after_unique hC _ (by simp) l₁ _ l₂ h ⟨v, rfl⟩ r hr
        · rintro ⟨r, hrmem, hcmd⟩
          rw [htr'] at hrmem
          rcases List.mem_append.mp hrmem with hr | hr
          · rcases List.mem_append.mp hr with hr | hr
            · have := (hro r hr).2
              rw [this] at hcmd
              exact Bool.noConfusion hcmd
            · have := map_wrReq_no_cmd d r hr
              rw [this] at hcmd
              exact Bool.noConfusion hcmd
          · rcases List.mem_cons.mp hr with rfl | hr
            · exact Bool.noConfusion hcmd
            · cases hr
    · have htr' : (runAlloc remote expected alloc fuel).1 =
          (tr₀ ++ d.map wrReq) ++
            Request.write cookieRegName (.str expected) ::
              [Request.command cmdStore, Request.command cmdRestart] := by
        rw [htr, hbfr]
        simp [wrReq]
      constructor
      · intro l₁ v l₂ h r hr
        rw [htr'] at h
        refine split_after_unique hC _ ?_ l₁ _ l₂ h ⟨v, rfl⟩ r hr
        intro r' hr'
        rcases List.mem_cons.mp hr' with rfl | hr'
        · rfl
        · rcases List.mem_cons.mp hr' with rfl | hr'
          · rfl
          · cases hr'
      · intro _
        exact ⟨tr₀ ++ d.map wrReq, by rw [htr']⟩

/-- C6 witness: a concrete completed run in which the commands follow the
cookie write, applied to both parts of the theorem. -/
theorem c6_cookie_write_last_witness :
    (∀ r ∈ [Request.command cmdStore, Request.command cmdRestart], Request.isWrite r = false) ∧
    ∃ tr₀, (runAlloc (storeRemote [(cookieRegName, RegValue.str "x")]) "exp" trivAlloc 5).1 =
      tr₀ ++ [Request.write cookieRegName (.str "exp"),
              Request.command cmdStore, Request.command cmdRestart] :=
  ⟨(c6_cookie_write_last (storeRemote [(cookieRegName, RegValue.str "x")]) "exp" trivAlloc 5).1
      [Request.read cookieRegName, Request.list 0, Request.list 1] (.str "exp")
      [Request.command cmdStore, Request.command cmdRestart] (by decide),
   (c6_cookie_write_last (storeRemote [(cookieRegName, RegValue.str "x")]) "exp" trivAlloc 5).2
      ⟨Request.command cmdStore, by decide, rfl⟩⟩

/-! ## Dot-splitting reconstruction -/

theorem splitDotsAux_ne_nil : ∀ (cs acc : List Char), splitDotsAux cs acc ≠ [] := by
  intro cs
  induction cs with
  | nil => intro acc h; exact List.noConfusion h
  | cons c cs ih =>
    intro acc
    unfold splitDotsAux
    by_cases hc : c = '.'
    · rw [if_pos hc]
      intro h
      exact List.noConfusion h
    · rw [if_neg hc]
      exact ih (c :: acc)

theorem joinDots_cons (x : List Char) {xs : List (List Char)} (h : xs ≠ []) :
    joinDots (x :: xs) = x ++ '.' :: joinDots xs := by
  cases xs with
  | nil => exact absurd rfl h
  | cons y ys => rfl

theorem joinDots_splitDotsAux : ∀ (cs acc : List Char),
    joinDots (splitDotsAux cs acc) = acc.reverse ++ cs := by
  intro cs
  induction cs with
  | nil =>
    intro acc
    simp [splitDotsAux, joinDots]
  | cons c cs ih =>
    intro acc
    unfold splitDotsAux
    by_cases hc : c = '.'
    · rw [if_pos hc, joinDots_cons _ (splitDotsAux_ne_nil cs []), ih]
      simp [hc]
    · rw [if_neg hc, ih]
      simp

theorem string_data_inj {a b : String} (h : a.data = b.data) : a = b := by
  cases a
  cases b
  cases h
  rfl

theorem splitDots_two {p a b : String} (h : splitDots p = [a, b]) :
    p.data = a.data ++ '.' :: b.data := by
  unfold splitDots at h
  cases hsp : splitDotsAux p.data [] with
  | nil => exact absurd hsp (splitDotsAux_ne_nil _ _)
  | cons x xs =>
    rw [hsp] at h
    cases xs with
    | nil => simp at h
    | cons y ys =>
      cases ys with
      | nil =>
        simp only [List.map_cons, List.map_nil, List.cons.injEq, and_true] at h
        have hj := joinDots_splitDotsAux p.data []
        rw [hsp] at hj
        rw [joinDots_cons _ (by intro hh; exact List.noConfusion hh)] at hj
        simp only [joinDots] at hj
        have ha : a.data = x := by rw [← h.1]
        have hb : b.data = y := by rw [← h.2]
        rw [ha, hb]
        simpa using hj.symm
      | cons z zs => simp at h

/-! ## Resolver item streams -/

theorem discSplit_mem {reg : List (String × List String)} {ports : List String}
    {t : String × String × String × String} (ht : t ∈ discSplit reg ports) :
    ∃ sp ∈ reg, ∃ pre ∈ sp.2, ∃ pn ∈ ports, ∃ b,
      splitDots pn = [stripDots pre, b] ∧ t = (sp.1, stripDots pre, b, pn) := by
  unfold discSplit at ht
  rcases List.mem_flatMap.mp ht with ⟨sp, hsp, ht⟩
  rcases List.mem_flatMap.mp ht with ⟨pre, hpre, ht⟩
  rcases List.mem_filterMap.mp ht with ⟨pn, hpn, hmatch⟩
  refine ⟨sp, hsp, pre, hpre, pn, hpn, ?_⟩
  cases hsd : splitDots pn with
  | nil =>
    rw [hsd] at hmatch
    exact Option.noConfusion
      (show (none : Option (String × String × String × String)) = some t from hmatch)
  | cons a xs =>
    cases xs with
    | nil =>
      rw [hsd] at hmatch
      exact Option.noConfusion
        (show (none : Option (String × String × String × String)) = some t from hmatch)
    | cons b ys =>
      cases ys with
      | nil =>
        rw [hsd] at hmatch
        have hmatch' : (if stripDots pre = a then some (sp.1, stripDots pre, b, pn)
            else none) = some t := hmatch
        by_cases hin : stripDots pre = a
        · rw [if_pos hin] at hmatch'
          have ht' : (sp.1, stripDots pre, b, pn) = t := by injection hmatch'
          exact ⟨b, by rw [hin], ht'.symm⟩
        · rw [if_neg hin] at hmatch'
          exact Option.noConfusion hmatch'
      | cons z zs =>
        rw [hsd] at hmatch
        exact Option.noConfusion
          (show (none : Option (String × String × String × String)) = some t from hmatch)

theorem discSplit_mem_of {reg : List (String × List String)} {ports : List String}
    {sp : String × List String} {pre pn b : String}
    (hsp : sp ∈ reg) (hpre : pre ∈ sp.2) (hpn : pn ∈ ports)
    (hsd : splitDots pn = [stripDots pre, b]) :
    (sp.1, stripDots pre, b, pn) ∈ discSplit reg ports := by
  unfold discSplit
  refine List.mem_flatMap.mpr ⟨sp, hsp, ?_⟩
  refine List.mem_flatMap.mpr ⟨pre, hpre, ?_⟩
  refine List.mem_filterMap.mpr ⟨pn, hpn, ?_⟩
  rw [hsd]
  show (if stripDots pre = stripDots pre then some (sp.1, stripDots pre, b, pn) else none) =
    some (sp.1, stripDots pre, b, pn)
  rw [if_pos rfl]

theorem good_tagItems {k : PKind} {ts : List (String × String × String × String)}
    (hts : ∀ t ∈ ts, (t.2.2.2 : String).data = (t.2.1 : String).data ++ '.' :: (t.2.2.1 : String).data) :
    ∀ it ∈ tagItems k ts, GoodItem it := by
  intro it hit
  rcases List.mem_map.mp hit with ⟨t, ht, rfl⟩
  exact hts t ht

theorem good_discSplit (reg : List (String × List String)) (ports : List String) :
    ∀ t ∈ discSplit reg ports,
      (t.2.2.2 : String).data = (t.2.1 : String).data ++ '.' :: (t.2.2.1 : String).data := by
  intro t ht
  obtain ⟨sp, _, pre, _, pn, _, b, hsd, rfl⟩ := discSplit_mem ht
  exact splitDots_two hsd

theorem good_discoverItems (reg : List (String × List String)) (pub sub cln srv : List String) :
    ∀ it ∈ discoverItems reg pub sub cln srv, GoodItem it := by
  intro it hit
  unfold discoverItems at hit
  rcases List.mem_append.mp hit with hit | hit
  · rcases List.mem_append.mp hit with hit | hit
    · rcases List.mem_append.mp hit with hit | hit
      · exact good_tagItems (good_discSplit reg pub) it hit
      · exact good_tagItems (good_discSplit reg sub) it hit
    · exact good_tagItems (good_discSplit reg cln) it hit
  · exact good_tagItems (good_discSplit reg srv) it hit

/-! ## Resolver fold characterizations -/

theorem kindGet_kindUpdate_same (k : PKind)
    (f : List (String × String) → List (String × String)) (psm : PortSuffixMapping) :
    kindGet k (kindUpdate k f psm) = f (kindGet k psm) := by
  cases k <;> rfl

theorem kindGet_kindUpdate_ne {k' k : PKind} (h : k' ≠ k)
    (f : List (String × String) → List (String × String)) (psm : PortSuffixMapping) :
    kindGet k (kindUpdate k' f psm) = kindGet k psm := by
  cases k' <;> cases k <;> first
    | rfl
    | exact absurd rfl h

theorem dkeys_stepItem (out : ServiceMap) (it : Item) :
    dkeys (stepItem out it) = insKey (dkeys out) it.svc := by
  unfold stepItem insKey
  rw [dkeys_dinsert]

theorem innerKeys_stepItem (out : ServiceMap) (it : Item) (svc : String) :
    innerKeysOf (stepItem out it) svc =
      if it.svc = svc then insKey (innerKeysOf out svc) it.ins
      else innerKeysOf out svc := by
  unfold innerKeysOf stepItem
  by_cases hs : it.svc = svc
  · rw [if_pos hs]
    subst hs
    rw [dlookup_dinsert_self]
    show dkeys (dinsert ((dlookup out it.svc).getD []) it.ins _) = _
    rw [dkeys_dinsert]
    rfl
  · rw [if_neg hs, dlookup_dinsert_ne _ _ hs]

theorem cell_stepItem (out : ServiceMap) (it : Item) (svc ins : String) (k : PKind) :
    kindGet k (psmAt (stepItem out it) svc ins) =
      if it.svc = svc ∧ it.ins = ins ∧ it.kind = k
      then dinsert (kindGet k (psmAt out svc ins)) it.suf it.port
      else kindGet k (psmAt out svc ins) := by
  unfold psmAt stepItem
  by_cases hs : it.svc = svc
  · subst hs
    rw [dlookup_dinsert_self, Option.getD_some]
    by_cases hi : it.ins = ins
    · subst hi
      rw [dlookup_dinsert_self, Option.getD_some]
      by_cases hk : it.kind = k
      · subst hk
        rw [if_pos ⟨rfl, rfl, rfl⟩, kindGet_kindUpdate_same]
      · rw [if_neg (by simp [hk]), kindGet_kindUpdate_ne hk]
    · rw [dlookup_dinsert_ne _ _ hi, if_neg (by simp [hi])]
  · rw [dlookup_dinsert_ne _ _ hs, if_neg (by simp [hs])]

theorem dkeys_foldl_stepItem : ∀ (items : List Item) (out : ServiceMap),
    dkeys (items.foldl stepItem out) = (items.map Item.svc).foldl insKey (dkeys out) := by
  intro items
  induction items with
  | nil => intro out; rfl
  | cons it items ih =>
    intro out
    rw [List.foldl_cons, List.map_cons, List.foldl_cons, ih, dkeys_stepItem]

theorem insSeq_cons (it : Item) (items : List Item) (svc : String) :
    insSeq (it :: items) svc =
      if it.svc = svc then it.ins :: insSeq items svc else insSeq items svc := by
  unfold insSeq
  rw [List.filterMap_cons]
  by_cases hs : it.svc = svc
  · rw [if_pos hs, if_pos hs]
  · rw [if_neg hs, if_neg hs]

theorem innerKeys_foldl_stepItem : ∀ (items : List Item) (out : ServiceMap) (svc : String),
    innerKeysOf (items.foldl stepItem out) svc =
      (insSeq items svc).foldl insKey (innerKeysOf out svc) := by
  intro items
  induction items with
  | nil => intro out svc; rfl
  | cons it items ih =>
    intro out svc
    rw [List.foldl_cons, ih, innerKeys_stepItem, insSeq_cons]
    by_cases hs : it.svc = svc
    · rw [if_pos hs, if_pos hs, List.foldl_cons]
    · rw [if_neg hs, if_neg hs]

theorem cellPairs_cons (it : Item) (items : List Item) (svc ins : String) (k : PKind) :
    cellPairs (it :: items) svc ins k =
      if it.svc = svc ∧ it.ins = ins ∧ it.kind = k
      then (it.suf, it.port) :: cellPairs items svc ins k
      else cellPairs items svc ins k := by
  unfold cellPairs
  rw [List.filterMap_cons]
  by_cases hc : it.svc = svc ∧ it.ins = ins ∧ it.kind = k
  · rw [if_pos hc, if_pos hc]
  · rw [if_neg hc, if_neg hc]

theorem cell_foldl_stepItem : ∀ (items : List Item) (out : ServiceMap)
    (svc ins : String) (k : PKind),
    kindGet k (psmAt (items.foldl stepItem out) svc ins) =
      (cellPairs items svc ins k).foldl (fun d sp => dinsert d sp.1 sp.2)
        (kindGet k (psmAt out svc ins)) := by
  intro items
  induction items with
  | nil => intro out svc ins k; rfl
  | cons it items ih =>
    intro out svc ins k
    rw [List.foldl_cons, ih, cell_stepItem, cellPairs_cons]
    by_cases hc : it.svc = svc ∧ it.ins = ins ∧ it.kind = k
    · rw [if_pos hc, if_pos hc, List.foldl_cons]
    · rw [if_neg hc, if_neg hc]

/-- C3, amended.  The key order of `discover_service_instances` is the
first-encounter order over the item stream emitted by `_split` for
publishers, then subscribers, then clients, then servers — and `_split`
iterates the registry services and their instance-prefix lists in its
OUTER loops, so the result order derives from the registry argument, not
from the order in which ports occur in the input lists.  Within one
suffix dict the entries follow the per-kind port scan, as the cell
characterization shows. -/
theorem c3_order_characterization (reg : List (String × List String))
    (pub sub cln srv : List String) :
    dkeys (discover_service_instances reg pub sub cln srv) =
      (svcSeq (discoverItems reg pub sub cln srv)).foldl insKey [] ∧
    (∀ svc, innerKeysOf (discover_service_instances reg pub sub cln srv) svc =
      (insSeq (discoverItems reg pub sub cln srv) svc).foldl insKey []) ∧
    (∀ svc ins k, kindGet k (psmAt (discover_service_instances reg pub sub cln srv) svc ins) =
      (cellPairs (discoverItems reg pub sub cln srv) svc ins k).foldl
        (fun d sp => dinsert d sp.1 sp.2) []) := by
  refine ⟨?_, fun svc => ?_, fun svc ins k => ?_⟩
  · exact dkeys_foldl_stepItem _ []
  · exact innerKeys_foldl_stepItem _ [] svc
  · have hbase : kindGet k (psmAt ([] : ServiceMap) svc ins) = [] := by
      cases k <;> rfl
    have hc := cell_foldl_stepItem (discoverItems reg pub sub cln srv) [] svc ins k
    rw [hbase] at hc
    exact hc

/-! ## Port membership in the discoverer result -/

theorem psmHasPort_iff {psm : PortSuffixMapping} {p : String} :
    psmHasPort psm p = true ↔ ∃ k sp, sp ∈ kindGet k psm ∧ (sp : String × String).2 = p := by
  unfold psmHasPort
  rw [List.any_eq_true]
  constructor
  · rintro ⟨k, _, hk⟩
    rcases List.any_eq_true.mp hk with ⟨sp, hsp, hv⟩
    exact ⟨k, sp, hsp, by simpa using hv⟩
  · rintro ⟨k, sp, hsp, hv⟩
    refine ⟨k, by cases k <;> simp, ?_⟩
    exact List.any_eq_true.mpr ⟨sp, hsp, by simpa using hv⟩

theorem psmHasPort_kindUpdate {psm : PortSuffixMapping} {p : String} {k : PKind}
    {suf port : String}
    (h : psmHasPort (kindUpdate k (fun d => dinsert d suf port) psm) p = true) :
    psmHasPort psm p = true ∨ port = p := by
  obtain ⟨k', sp, hsp, hv⟩ := psmHasPort_iff.mp h
  by_cases hk : k = k'
  · subst hk
    rw [kindGet_kindUpdate_same] at hsp
    rcases mem_dinsert hsp with hsp | hsp
    · exact Or.inl (psmHasPort_iff.mpr ⟨k, sp, hsp, hv⟩)
    · right
      rw [hsp] at hv
      exact hv
  · rw [kindGet_kindUpdate_ne hk] at hsp
    exact Or.inl (psmHasPort_iff.mpr ⟨k', sp, hsp, hv⟩)

theorem portAppears_stepItem {out : ServiceMap} {it : Item} {p : String}
    (h : portAppears (stepItem out it) p = true) :
    portAppears out p = true ∨ it.port = p := by
  unfold portAppears stepItem at h
  rcases List.any_eq_true.mp h with ⟨se, hse, hinner⟩
  rcases mem_dinsert hse with hse | hse
  · left
    exact List.any_eq_true.mpr ⟨se, hse, hinner⟩
  · subst hse
    simp only at hinner
    rcases List.any_eq_true.mp hinner with ⟨ie, hie, hpsm⟩
    rcases mem_dinsert hie with hie | hie
    · -- the entry comes from the old inner dict, which is itself a value in `out`
      cases hdl : dlookup out it.svc with
      | none =>
        rw [hdl] at hie
        cases hie
      | some inner₀ =>
        rw [hdl] at hie
        left
        refine List.any_eq_true.mpr ⟨(it.svc, inner₀), dlookup_mem hdl, ?_⟩
        exact List.any_eq_true.mpr ⟨ie, hie, hpsm⟩
    · subst hie
      simp only at hpsm
      rcases psmHasPort_kindUpdate hpsm with hpsm | hpsm
      · -- the port sits in the old suffix mapping, itself a value in `out`
        cases hdl : dlookup out it.svc with
        | none =>
          rw [hdl] at hpsm
          have : psmHasPort emptyPSM p = true := by
            simpa [dlookup] using hpsm
          obtain ⟨k, sp, hsp, _⟩ := psmHasPort_iff.mp this
          cases k <;> cases hsp
        | some inner₀ =>
          rw [hdl, Option.getD_some] at hpsm
          cases hdli : dlookup inner₀ it.ins with
          | none =>
            rw [hdli] at hpsm
            obtain ⟨k, sp, hsp, _⟩ := psmHasPort_iff.mp hpsm
            cases k <;> cases hsp
          | some psm₀ =>
            rw [hdli, Option.getD_some] at hpsm
            left
            refine List.any_eq_true.mpr ⟨(it.svc, inner₀), dlookup_mem hdl, ?_⟩
            exact List.any_eq_true.mpr ⟨(it.ins, psm₀), dlookup_mem hdli, hpsm⟩
      · exact Or.inr hpsm

theorem portAppears_foldl : ∀ (items : List Item) (out : ServiceMap) (p : String),
    portAppears (items.foldl stepItem out) p = true →
    portAppears out p = true ∨ ∃ it ∈ items, it.port = p := by
  intro items
  induction items with
  | nil =>
    intro out p h
    exact Or.inl h
  | cons it items ih =>
    intro out p h
    rw [List.foldl_cons] at h
    rcases ih _ p h with h' | ⟨it', hit', hp⟩
    · rcases portAppears_stepItem h' with h'' | h''
      · exact Or.inl h''
      · exact Or.inr ⟨it, List.mem_cons_self _ _, h''⟩
    · exact Or.inr ⟨it', List.mem_cons_of_mem _ hit', hp⟩

theorem foldl_dinsert_mem : ∀ (pairs : List (String × String)) (k₀ v₀ : String),
    (∀ q ∈ pairs, (q : String × String).1 = k₀ → q.2 = v₀) →
    ∀ d, ((k₀, v₀) ∈ d ∨ (k₀, v₀) ∈ pairs) →
      (k₀, v₀) ∈ pairs.foldl (fun d sp => dinsert d sp.1 sp.2) d := by
  intro pairs
  induction pairs with
  | nil =>
    intro k₀ v₀ hfun d h
    rcases h with h | h
    · exact h
    · cases h
  | cons q pairs ih =>
    intro k₀ v₀ hfun d h
    rw [List.foldl_cons]
    apply ih k₀ v₀ (fun q' hq' hk => hfun q' (List.mem_cons_of_mem _ hq') hk)
    rcases h with h | h
    · by_cases hq : q.1 = k₀
      · have hv : q.2 = v₀ := hfun q (List.mem_cons_self _ _) hq
        left
        rw [hq, hv]
        exact mem_dinsert_self _ _ _
      · left
        exact mem_dinsert_of_ne h _ (fun he => hq he.symm)
    · rcases List.mem_cons.mp h with heq | h
      · left
        rw [← heq]
        exact mem_dinsert_self d _ _
      · exact Or.inr h

theorem cellPairs_mem {items : List Item} {svc ins : String} {k : PKind} {q : String × String} :
    q ∈ cellPairs items svc ins k ↔
      ∃ it ∈ items, it.svc = svc ∧ it.ins = ins ∧ it.kind = k ∧ q = (it.suf, it.port) := by
  unfold cellPairs
  rw [List.mem_filterMap]
  constructor
  · rintro ⟨it, hit, hq⟩
    by_cases hc : it.svc = svc ∧ it.ins = ins ∧ it.kind = k
    · rw [if_pos hc] at hq
      have hq' : (it.suf, it.port) = q := Option.some.inj hq
      exact ⟨it, hit, hc.1, hc.2.1, hc.2.2, hq'.symm⟩
    · rw [if_neg hc] at hq
      exact Option.noConfusion hq
  · rintro ⟨it, hit, h1, h2, h3, rfl⟩
    exact ⟨it, hit, by rw [if_pos ⟨h1, h2, h3⟩]⟩

theorem portAppears_of_cell {out : ServiceMap} {svc ins : String} {k : PKind} {suf p : String}
    (h : (suf, p) ∈ kindGet k (psmAt out svc ins)) : portAppears out p = true := by
  unfold psmAt at h
  cases hdl : dlookup out svc with
  | none =>
    rw [hdl] at h
    have hz : kindGet k ((dlookup ((none : Option (List (String × PortSuffixMapping))).getD [])
        ins).getD emptyPSM) = [] := by
      cases k <;> rfl
    rw [hz] at h
    cases h
  | some inner =>
    rw [hdl, Option.getD_some] at h
    cases hdli : dlookup inner ins with
    | none =>
      rw [hdli] at h
      have hz : kindGet k ((none : Option PortSuffixMapping).getD emptyPSM) = [] := by
        cases k <;> rfl
      rw [hz] at h
      cases h
    | some psm =>
      rw [hdli, Option.getD_some] at h
      unfold portAppears
      refine List.any_eq_true.mpr ⟨(svc, inner), dlookup_mem hdl, ?_⟩
      refine List.any_eq_true.mpr ⟨(ins, psm), dlookup_mem hdli, ?_⟩
      exact psmHasPort_iff.mpr ⟨k, (suf, p), h, rfl⟩

theorem portAppears_discover_of_item {reg : List (String × List String)}
    {pub sub cln srv : List String} {it : Item}
    (hit : it ∈ discoverItems reg pub sub cln srv) :
    portAppears (discover_service_instances reg pub sub cln srv) it.port = true := by
  obtain ⟨k, svc, ins, suf, port⟩ := it
  have hgood := good_discoverItems reg pub sub cln srv
  have hchar := cell_foldl_stepItem (discoverItems reg pub sub cln srv) [] svc ins k
  have hbase : kindGet k (psmAt ([] : ServiceMap) svc ins) = [] := by
    cases k <;> rfl
  rw [hbase] at hchar
  have hmem : (suf, port) ∈ cellPairs (discoverItems reg pub sub cln srv) svc ins k :=
    cellPairs_mem.mpr ⟨⟨k, svc, ins, suf, port⟩, hit, rfl, rfl, rfl, rfl⟩
  have hfun : ∀ q ∈ cellPairs (discoverItems reg pub sub cln srv) svc ins k,
      (q : String × String).1 = suf → q.2 = port := by
    intro q hq h1
    obtain ⟨it', hit', hs', hi', hk', rfl⟩ := cellPairs_mem.mp hq
    simp only at h1 ⊢
    have hg1 := hgood _ hit'
    have hg2 := hgood _ hit
    unfold GoodItem at hg1 hg2
    apply string_data_inj
    rw [hg1, hi', h1]
    simp only at hg2
    rw [hg2]
  have hin := foldl_dinsert_mem _ suf port hfun [] (Or.inr hmem)
  rw [← hchar] at hin
  exact portAppears_of_cell hin

theorem specRegistryMatch_of (reg : List (String × List String))
    {sp : String × List String} {pre p b : String}
    (hsp : sp ∈ reg) (hpre : pre ∈ sp.2) (hsd : splitDots p = [stripDots pre, b]) :
    specRegistryMatch reg p = true := by
  unfold specRegistryMatch
  rw [hsd]
  show (reg.any fun spx => spx.2.any fun prex => stripDots prex == stripDots pre) = true
  exact List.any_eq_true.mpr ⟨sp, hsp, List.any_eq_true.mpr ⟨pre, hpre, by simp⟩⟩

/-- C5, amended.  For a port name occurring in one of the four input
lists: it appears (as a full port name) somewhere in the result of
`discover_service_instances` exactly when splitting it on `.` yields two
components whose first equals some registered instance prefix with
leading AND trailing dots stripped (Python `strip(".")`); three-component
names never match and non-matching ports are silently dropped. -/
theorem c5_membership_characterization (reg : List (String × List String))
    (pub sub cln srv : List String) (p : String)
    (hp : p ∈ pub ∨ p ∈ sub ∨ p ∈ cln ∨ p ∈ srv) :
    portAppears (discover_service_instances reg pub sub cln srv) p = true ↔
      specRegistryMatch reg p = true := by
  constructor
  · intro h
    rcases portAppears_foldl _ [] p h with h0 | ⟨it, hit, hp'⟩
    · exact Bool.noConfusion (show false = true from h0)
    · have hfrom : ∃ t, (t ∈ discSplit reg pub ∨ t ∈ discSplit reg sub ∨
          t ∈ discSplit reg cln ∨ t ∈ discSplit reg srv) ∧
          (t.2.2.2 : String) = it.port := by
        unfold discoverItems at hit
        rcases List.mem_append.mp hit with hit | hit
        · rcases List.mem_append.mp hit with hit | hit
          · rcases List.mem_append.mp hit with hit | hit
            · rcases List.mem_map.mp hit with ⟨t, ht, rfl⟩
              exact ⟨t, Or.inl ht, rfl⟩
            · rcases List.mem_map.mp hit with ⟨t, ht, rfl⟩
              exact ⟨t, Or.inr (Or.inl ht), rfl⟩
          · rcases List.mem_map.mp hit with ⟨t, ht, rfl⟩
            exact ⟨t, Or.inr (Or.inr (Or.inl ht)), rfl⟩
        · rcases List.mem_map.mp hit with ⟨t, ht, rfl⟩
          exact ⟨t, Or.inr (Or.inr (Or.inr ht)), rfl⟩
      obtain ⟨t, hts, hport⟩ := hfrom
      have hmem : ∃ sp ∈ reg, ∃ pre ∈ sp.2, ∃ pn ∈ (pub ++ sub ++ cln ++ srv), ∃ b,
          splitDots pn = [stripDots pre, b] ∧ t = (sp.1, stripDots pre, b, pn) := by
        rcases hts with ht | ht | ht | ht
        · obtain ⟨sp, hsp, pre, hpre, pn, hpn, b, hsd, he⟩ := discSplit_mem ht
          exact ⟨sp, hsp, pre, hpre, pn, by simp [hpn], b, hsd, he⟩
        · obtain ⟨sp, hsp, pre, hpre, pn, hpn, b, hsd, he⟩ := discSplit_mem ht
          exact ⟨sp, hsp, pre, hpre, pn, by simp [hpn], b, hsd, he⟩
        · obtain ⟨sp, hsp, pre, hpre, pn, hpn, b, hsd, he⟩ := discSplit_mem ht
          exact ⟨sp, hsp, pre, hpre, pn, by simp [hpn], b, hsd, he⟩
        · obtain ⟨sp, hsp, pre, hpre, pn, hpn, b, hsd, he⟩ := discSplit_mem ht
          exact ⟨sp, hsp, pre, hpre, pn, by simp [hpn], b, hsd, he⟩
      obtain ⟨sp, hsp, pre, hpre, pn, _, b, hsd, he⟩ := hmem
      have hpn_p : pn = p := by
        have h1 : (t.2.2.2 : String) = pn := by rw [he]
        rw [← h1, hport, hp']
      exact specRegistryMatch_of reg hsp hpre (hpn_p ▸ hsd)
  · intro h
    unfold specRegistryMatch at h
    cases hsd : splitDots p with
    | nil =>
      rw [hsd] at h
      exact Bool.noConfusion (show false = true from h)
    | cons a xs =>
      cases xs with
      | nil =>
        rw [hsd] at h
        exact Bool.noConfusion (show false = true from h)
      | cons b ys =>
        cases ys with
        | cons z zs =>
          rw [hsd] at h
          exact Bool.noConfusion (show false = true from h)
        | nil =>
          rw [hsd] at h
          have h' : (reg.any fun spx => spx.2.any fun prex => stripDots prex == a) = true := h
          rcases List.any_eq_true.mp h' with ⟨sp, hsp, hin⟩
          rcases List.any_eq_true.mp hin with ⟨pre, hpre, hbeq⟩
          have hstrip : stripDots pre = a := by simpa using hbeq
          have hsd' : splitDots p = [stripDots pre, b] := by rw [hsd, hstrip]
          have key : ∀ it : Item, it ∈ discoverItems reg pub sub cln srv → it.port = p →
              portAppears (discover_service_instances reg pub sub cln srv) p = true := by
            intro it hit hport
            have := portAppears_discover_of_item hit
            rw [hport] at this
            exact this
          rcases hp with hp | hp | hp | hp
          · exact key ⟨.pub, sp.1, stripDots pre, b, p⟩
              (List.mem_append_left _ (List.mem_append_left _ (List.mem_append_left _
                (List.mem_map_of_mem _ (discSplit_mem_of hsp hpre hp hsd'))))) rfl
          · exact key ⟨.sub, sp.1, stripDots pre, b, p⟩
              (List.mem_append_left _ (List.mem_append_left _ (List.mem_append_right _
                (List.mem_map_of_mem _ (discSplit_mem_of hsp hpre hp hsd'))))) rfl
          · exact key ⟨.cln, sp.1, stripDots pre, b, p⟩
              (List.mem_append_left _ (List.mem_append_right _
                (List.mem_map_of_mem _ (discSplit_mem_of hsp hpre hp hsd')))) rfl
          · exact key ⟨.srv, sp.1, stripDots pre, b, p⟩
              (List.mem_append_right _
                (List.mem_map_of_mem _ (discSplit_mem_of hsp hpre hp hsd'))) rfl

/-- C5 witness: with registered prefix `"a"`, the two-component port
`"a.x"` appears while the three-component port `"a.b.c"` does not, in
agreement with the match criterion. -/
theorem c5_membership_characterization_witness :
    (("a.x" : String) ∈ (["a.x", "a.b.c"] : List String) ∨ ("a.x" : String) ∈ ([] : List String) ∨
      ("a.x" : String) ∈ ([] : List String) ∨ ("a.x" : String) ∈ ([] : List String)) ∧
    (portAppears (discover_service_instances [("S", ["a"])] ["a.x", "a.b.c"] [] [] []) "a.x" = true ↔
      specRegistryMatch [("S", ["a"])] "a.x" = true) ∧
    portAppears (discover_service_instances [("S", ["a"])] ["a.x", "a.b.c"] [] [] []) "a.b.c" = false ∧
    specRegistryMatch [("S", ["a"])] "a.b.c" = false :=
  ⟨Or.inl (by decide),
    c5_membership_characterization [("S", ["a"])] ["a.x", "a.b.c"] [] [] [] "a.x"
      (Or.inl (by decide)),
    by decide, by decide⟩

end UdralPnp
